import Mathlib

/-!
Verification development for the swg-rs TRE archive engine and STF string-table
codec.  The definitions below are a shallow embedding of the Rust sources
(crates/swg_tre/src/{types,compression,read,write}.rs and
crates/swg_stf/src/read.rs):

* bytes are modelled as lists of naturals; multi-byte integers are serialized
  little-endian with an explicit mod 2^32 at the 4-byte boundary, mirroring the
  u32 on-disk fields (in-memory counters are u64/usize in the source and are
  kept as exact naturals; they are truncated exactly where the source casts);
* the external zlib codec (flate2), and the external MD5 digest, are not code
  of this repository: they enter the embedding as function parameters
  (deflate, inflate, md5), with their contracts (inflate inverts deflate,
  digests are 16 bytes) taken as hypotheses where a claim needs them;
* the in-memory block writers (TreBlockWriter over a Cursor) buffer all input
  and apply the compression only at finalize, so they are represented by the
  list of bytes fed in; total_in is its length;
* fallible operations return Except; an end-of-input while reading is the
  UnexpectedEof I/O error a Rust Cursor produces, kept distinct from the
  binrw format errors (bad magic, unknown enum variant) and from the zlib
  invalid-data error;
* the reader keys its insertion-ordered map by the raw name bytes.  The source
  keys it by String::from_utf8_lossy of those bytes; the writer only ever
  stores UTF-8 names, on which the lossy decoding is injective, and the
  IndexMap replace-on-duplicate behaviour modelled here is the same either
  way.
-/

namespace SwgTre

/-- Byte strings are lists of naturals (each byte below 256 in real data). -/
abbrev Bytes := List Nat

/-- Little-endian 4-byte serialization of a u32 field; casting to u32 and
splitting into bytes truncates the value mod 2^32. -/
def u32le (n : Nat) : Bytes :=
  [n % 256, n / 256 % 256, n / 65536 % 256, n / 16777216 % 256]

/-- Compression tag stored in TRE headers and records (compression.rs):
None = 0, Zlib = 2; every other 32-bit value is rejected by the binrw
repr-u32 parser. -/
inductive CompressionMethod
  | none
  | zlib
deriving DecidableEq

/-- Encoding of a compression method as the on-disk u32. -/
def CompressionMethod.toU32 : CompressionMethod → Nat
  | .none => 0
  | .zlib => 2

/-- Parsing of the on-disk u32 compression tag; values other than 0 and 2
have no variant. -/
def CompressionMethod.ofU32 (v : Nat) : Option CompressionMethod :=
  if v = 0 then some .none else if v = 2 then some .zlib else Option.none

/-- One round of the non-reflected CRC-32 with polynomial 0x04C11DB7. -/
def crc32Round (r : Nat) : Nat :=
  if r.testBit 31 then ((r * 2) ^^^ 0x04C11DB7) % 2 ^ 32 else (r * 2) % 2 ^ 32

/-- Feeding one byte into the CRC-32/BZIP2 state: xor into the top byte,
then eight polynomial rounds. -/
def crc32Byte (r b : Nat) : Nat :=
  (List.range 8).foldl (fun s _ => crc32Round s) (r ^^^ (b % 256 * 2 ^ 24))

/-- CRC-32/BZIP2 (poly 0x04C11DB7, init 0xFFFFFFFF, refin=false, refout=false,
xorout 0xFFFFFFFF), the crc crate algorithm the writer applies to each entry
name. -/
def crc32bzip2 (bs : Bytes) : Nat :=
  (bs.foldl crc32Byte 0xFFFFFFFF) ^^^ 0xFFFFFFFF

/-- TRE file header (types.rs), 36 bytes on disk behind the 8-byte magic. -/
structure TreHeader where
  records : Nat
  record_start : Nat
  record_compression : CompressionMethod
  record_compressed : Nat
  name_compression : CompressionMethod
  name_compressed : Nat
  name_uncompressed : Nat
deriving DecidableEq

/-- TRE file record (types.rs), 24 bytes on disk. -/
structure TreRecord where
  checksum : Nat
  data_uncompressed : Nat
  data_offset : Nat
  data_compression : CompressionMethod
  data_compressed : Nat
  name_offset : Nat
deriving DecidableEq

/-- Magic prefix of every TRE file: "EERT5000". -/
def treMagic : Bytes := [0x45, 0x45, 0x52, 0x54, 0x35, 0x30, 0x30, 0x30]

/-- Little-endian serialization of a record, as binrw writes it. -/
def TreRecord.toBytes (r : TreRecord) : Bytes :=
  u32le r.checksum ++ u32le r.data_uncompressed ++ u32le r.data_offset ++
    u32le r.data_compression.toU32 ++ u32le r.data_compressed ++ u32le r.name_offset

/-- Little-endian serialization of the header, as binrw writes it. -/
def TreHeader.toBytes (h : TreHeader) : Bytes :=
  treMagic ++ u32le h.records ++ u32le h.record_start ++
    u32le h.record_compression.toU32 ++ u32le h.record_compressed ++
    u32le h.name_compression.toU32 ++ u32le h.name_compressed ++
    u32le h.name_uncompressed

/-- Finalizing a TreBlockWriter: the buffered input is emitted verbatim for
None and run through the zlib encoder for Zlib. -/
def encBlock (deflate : Bytes → Bytes) : CompressionMethod → Bytes → Bytes
  | .none, bs => bs
  | .zlib, bs => deflate bs

/-- Total length of a list of byte strings. -/
def sumLens (l : List Bytes) : Nat := (l.map List.length).sum

/-- Options for TreWriter (write.rs). -/
structure TreWriterOptions where
  record_compression : CompressionMethod
  name_compression : CompressionMethod

/-- State of the streaming TRE writer (write.rs).  The four block writers are
kept as the input fed to them: infoRecs is the record block input (one record
per finished entry, serialized at finish), disks the per-entry finalized data
chunks, nameIn the name block input.  The hash block input is md5 of each
disk chunk in order and is recomputed at finish.  current_data_block is Some
exactly when writing_to_file (asserted in the source), so only its contents
are stored. -/
structure TreWriter where
  writingToFile : Bool
  records : Nat
  recordCompression : CompressionMethod
  nameCompression : CompressionMethod
  infoRecs : List TreRecord
  disks : List Bytes
  nameIn : Bytes
  currentCompression : CompressionMethod
  currentIn : Bytes
  statsInfoOffset : Nat
  statsNameOffset : Nat
  record : TreRecord

/-- Construction of a fresh writer; the record template starts as
TreRecord::default(), whose compression default is Zlib. -/
def TreWriter.new (opts : TreWriterOptions) : TreWriter where
  writingToFile := false
  records := 0
  recordCompression := opts.record_compression
  nameCompression := opts.name_compression
  infoRecs := []
  disks := []
  nameIn := []
  currentCompression := .zlib
  currentIn := []
  statsInfoOffset := 0
  statsNameOffset := 0
  record :=
    { checksum := 0, data_uncompressed := 0, data_offset := 0,
      data_compression := .zlib, data_compressed := 0, name_offset := 0 }

/-- TreWriter::finish_file: finalize the current entry block, fill in the two
size fields of the in-progress record, append the serialized record, the
finalized data and its MD5 digest to their blocks. -/
def TreWriter.finishFile (deflate : Bytes → Bytes) (w : TreWriter) : TreWriter :=
  let disk := encBlock deflate w.currentCompression w.currentIn
  let r1 : TreRecord :=
    { w.record with data_uncompressed := w.currentIn.length, data_compressed := disk.length }
  { w with
    statsInfoOffset := w.statsInfoOffset + 24
    record := r1
    infoRecs := w.infoRecs ++ [r1]
    disks := w.disks ++ [disk]
    currentIn := []
    writingToFile := false }

/-- Finishing the open entry if there is one, shared by start_file and
finish. -/
def TreWriter.finishPending (deflate : Bytes → Bytes) (w : TreWriter) : TreWriter :=
  if w.writingToFile then w.finishFile deflate else w

/-- TreWriter::start_file: finish any open entry, allocate a fresh entry block,
bump the record counter, append the NUL-terminated name to the name block and
fill the in-progress record's start-time fields. -/
def TreWriter.startFile (deflate : Bytes → Bytes) (w0 : TreWriter)
    (name : Bytes) (compression : CompressionMethod) : TreWriter :=
  let w := w0.finishPending deflate
  { w with
    currentCompression := compression
    currentIn := []
    records := w.records + 1
    nameIn := w.nameIn ++ name ++ [0]
    record :=
      { w.record with
        data_compression := compression
        checksum := crc32bzip2 name
        data_offset := 36 + sumLens w.disks
        name_offset := w.statsNameOffset }
    statsNameOffset := w.nameIn.length + name.length + 1
    writingToFile := true }

/-- The io::Write impl for TreWriter: writing with no entry open fails with
the "No file has been started" I/O error and touches nothing; otherwise the
bytes are fed to the current entry block and their count returned. -/
def TreWriter.write (w : TreWriter) (buf : Bytes) : Except String (TreWriter × Nat) :=
  if w.writingToFile = false then .error "No file has been started"
  else .ok ({ w with currentIn := w.currentIn ++ buf }, buf.length)

/-- TreWriter::finish: finish an open entry, finalize the data, record and name
blocks, fill in the header sizes, and emit header, data, records, names and
hash trailer in that order. -/
def TreWriter.finish (deflate md5 : Bytes → Bytes) (w0 : TreWriter) : Bytes :=
  let w := w0.finishPending deflate
  let dataBlock := w.disks.flatten
  let infoBlock := encBlock deflate w.recordCompression (w.infoRecs.map TreRecord.toBytes).flatten
  let nameBlock := encBlock deflate w.nameCompression w.nameIn
  let header : TreHeader :=
    { records := w.records
      record_start := 36 + dataBlock.length
      record_compression := w.recordCompression
      record_compressed := infoBlock.length
      name_compression := w.nameCompression
      name_compressed := nameBlock.length
      name_uncompressed := w.nameIn.length }
  header.toBytes ++ dataBlock ++ infoBlock ++ nameBlock ++ (w.disks.map md5).flatten

/-- Calls a client can make between new and finish. -/
inductive WriterOp
  | startOp (name : Bytes) (compression : CompressionMethod)
  | writeOp (buf : Bytes)
  | finishFileOp

/-- One client call.  A failed write leaves the writer untouched; finish_file
is only reachable with an entry open (the source unconditionally takes the
current block there), so it is a no-op otherwise. -/
def TreWriter.step (deflate : Bytes → Bytes) (w : TreWriter) : WriterOp → TreWriter
  | .startOp n c => w.startFile deflate n c
  | .writeOp buf =>
    match w.write buf with
    | .ok (w1, _) => w1
    | .error _ => w
  | .finishFileOp => w.finishPending deflate

/-- Running a sequence of client calls. -/
def TreWriter.runOps (deflate : Bytes → Bytes) (w : TreWriter) : List WriterOp → TreWriter
  | [] => w
  | op :: rest => (w.step deflate op).runOps deflate rest

/-- One archive entry a client wants stored: a name, the payload bytes and the
per-entry compression choice. -/
structure WEntry where
  name : Bytes
  payload : Bytes
  method : CompressionMethod

/-- The canonical call pattern of the round-trip claim: start_file for each
entry followed by one write of its payload. -/
def entriesTrace (S : List WEntry) : List WriterOp :=
  S.flatMap fun e => [.startOp e.name e.method, .writeOp e.payload]

/-- Writing a list of entries and finishing the archive. -/
def writeArchive (deflate md5 : Bytes → Bytes) (opts : TreWriterOptions)
    (S : List WEntry) : Bytes :=
  ((TreWriter.new opts).runOps deflate (entriesTrace S)).finish deflate md5

/-- Internal failure while loading an archive.  eof and invalidData are
std::io errors (UnexpectedEof from the cursor, InvalidData from a corrupt
zlib stream); badMagic and badVariant are the binrw format errors. -/
inductive ReadErr
  | eof
  | invalidData
  | badMagic
  | badVariant
deriving DecidableEq

/-- Whether an internal failure is carried by a std::io::Error. -/
def ReadErr.isIo : ReadErr → Bool
  | .eof => true
  | .invalidData => true
  | .badMagic => false
  | .badVariant => false

/-- The public error surface of the swg_tre crate (error.rs). -/
inductive TreError
  | ioError (e : ReadErr)
  | binError (e : ReadErr)
  | invalidArchive
  | fileNotFoundIndex (i : Nat)
  | fileNotFoundName (n : Bytes)
deriving DecidableEq

/-- Reading one byte from the front of a stream. -/
def readU8 : Bytes → Except ReadErr (Nat × Bytes)
  | [] => .error .eof
  | b :: rest => .ok (b, rest)

/-- Reading a little-endian u32 from the front of a stream. -/
def readU32 : Bytes → Except ReadErr (Nat × Bytes)
  | b0 :: b1 :: b2 :: b3 :: rest =>
    .ok (b0 + 256 * (b1 + 256 * (b2 + 256 * b3)), rest)
  | _ => .error .eof

/-- Reading a compression-method field: a u32 whose only admissible values
are 0 and 2. -/
def readCompression (bs : Bytes) : Except ReadErr (CompressionMethod × Bytes) := do
  let (v, s) ← readU32 bs
  match CompressionMethod.ofU32 v with
  | some c => pure (c, s)
  | Option.none => .error .badVariant

/-- Parsing the 36-byte header from the start of the input: exact magic match
first, then the seven little-endian fields. -/
def readHeader (bs : Bytes) : Except ReadErr TreHeader :=
  if bs.length < 8 then .error .eof
  else if bs.take 8 ≠ treMagic then .error .badMagic
  else do
    let (records, s) ← readU32 (bs.drop 8)
    let (record_start, s) ← readU32 s
    let (record_compression, s) ← readCompression s
    let (record_compressed, s) ← readU32 s
    let (name_compression, s) ← readCompression s
    let (name_compressed, s) ← readU32 s
    let (name_uncompressed, _) ← readU32 s
    pure { records, record_start, record_compression, record_compressed,
           name_compression, name_compressed, name_uncompressed }

/-- Parsing one 24-byte record from the front of the record-block stream. -/
def readRecord (bs : Bytes) : Except ReadErr (TreRecord × Bytes) := do
  let (checksum, s) ← readU32 bs
  let (data_uncompressed, s) ← readU32 s
  let (data_offset, s) ← readU32 s
  let (data_compression, s) ← readCompression s
  let (data_compressed, s) ← readU32 s
  let (name_offset, s) ← readU32 s
  pure ({ checksum, data_uncompressed, data_offset, data_compression,
          data_compressed, name_offset }, s)

/-- Parsing the requested number of records in sequence. -/
def readRecords : Nat → Bytes → Except ReadErr (List TreRecord)
  | 0, _ => .ok []
  | n + 1, bs => do
    let (r, s) ← readRecord bs
    let rs ← readRecords n s
    pure (r :: rs)

/-- Reading one NUL-terminated name from the front of the name-block stream;
running out of bytes before the NUL is an eof. -/
def readName : Bytes → Except ReadErr (Bytes × Bytes)
  | [] => .error .eof
  | b :: rest =>
    if b = 0 then .ok ([], rest)
    else do
      let (n, s) ← readName rest
      pure (b :: n, s)

/-- Reading the requested number of names in sequence. -/
def readNames : Nat → Bytes → Except ReadErr (List Bytes)
  | 0, _ => .ok []
  | n + 1, bs => do
    let (nm, s) ← readName bs
    let ns ← readNames n s
    pure (nm :: ns)

/-- Seeking to an absolute offset and capping reads at a byte budget
(TreBlockReader over start/limit). -/
def slice (bs : Bytes) (start len : Nat) : Bytes := (bs.drop start).take len

/-- Decoding a block region: verbatim for None, through the zlib decoder for
Zlib (a corrupt stream is the InvalidData I/O error). -/
def decodeBlock (inflate : Bytes → Option Bytes) :
    CompressionMethod → Bytes → Except ReadErr Bytes
  | .none, bs => .ok bs
  | .zlib, bs =>
    match inflate bs with
    | some r => .ok r
    | Option.none => .error .invalidData

/-- Per-entry metadata the reader exposes (read.rs TreFileData); file_name
holds the raw name bytes. -/
structure TreFileData where
  crc32 : Nat
  compression_method : CompressionMethod
  compressed_size : Nat
  uncompressed_size : Nat
  file_name : Bytes
  header_start : Nat
  data_start : Nat
deriving DecidableEq

/-- Whether an insertion-ordered map already holds a key. -/
def imContains {α β : Type} [DecidableEq α] (m : List (α × β)) (k : α) : Bool :=
  m.any fun p => p.1 = k

/-- IndexMap::insert: an existing key keeps its place and its value is
replaced; a fresh key goes to the back. -/
def imInsert {α β : Type} [DecidableEq α] (m : List (α × β)) (k : α) (v : β) :
    List (α × β) :=
  if imContains m k then m.map fun p => if p.1 = k then (k, v) else p
  else m ++ [(k, v)]

/-- IndexMap::get: value at the first (only) occurrence of the key. -/
def imFind {α β : Type} [DecidableEq α] (m : List (α × β)) (k : α) : Option β :=
  (m.find? fun p => p.1 = k).map fun p => p.2

/-- IndexMap::get_index_of: position of the key in insertion order. -/
def imIndexOf {α β : Type} [DecidableEq α] (m : List (α × β)) (k : α) : Option Nat :=
  m.findIdx? fun p => p.1 = k

/-- The per-entry metadata the reader derives from a parsed record and its
raw name (read.rs get_metadata); header_start stays reserved at 0. -/
def mkFileData (r : TreRecord) (n : Bytes) : TreFileData :=
  { crc32 := r.checksum
    compression_method := r.data_compression
    compressed_size := r.data_compressed
    uncompressed_size := r.data_uncompressed
    file_name := n
    header_start := 0
    data_start := r.data_offset }

/-- Building the insertion-ordered name map from the zipped records and
names. -/
def buildFiles (ps : List (TreRecord × Bytes)) : List (Bytes × TreFileData) :=
  ps.foldl (fun m rn => imInsert m rn.2 (mkFileData rn.1 rn.2)) []

/-- Parsed archive state shared between entry readers. -/
structure Shared where
  header : TreHeader
  files : List (Bytes × TreFileData)
deriving DecidableEq

/-- TreArchive::get_metadata: parse the header, decode and parse the record
block at record_start, decode the name block right behind it and read one
NUL-terminated name per record, then zip both into the ordered map. -/
def getMetadata (inflate : Bytes → Option Bytes) (bs : Bytes) :
    Except ReadErr Shared := do
  let header ← readHeader bs
  let recBlock ← decodeBlock inflate header.record_compression
      (slice bs header.record_start header.record_compressed)
  let records ← readRecords header.records recBlock
  let nameBlock ← decodeBlock inflate header.name_compression
      (slice bs (header.record_start + header.record_compressed) header.name_compressed)
  let names ← readNames header.records nameBlock
  pure { header, files := buildFiles (records.zip names) }

/-- TreArchive::new: any failure inside get_metadata, of any kind, is replaced
by the InvalidArchive error. -/
def TreArchive.new (inflate : Bytes → Option Bytes) (bs : Bytes) :
    Except TreError Shared :=
  match getMetadata inflate bs with
  | .ok shared => .ok shared
  | .error _ => .error .invalidArchive

/-- Reading one entry's payload to the end: seek to data_start, cap at
compressed_size, decompress per the entry's method. -/
def readEntryBytes (inflate : Bytes → Option Bytes) (bs : Bytes)
    (d : TreFileData) : Except ReadErr Bytes :=
  decodeBlock inflate d.compression_method (slice bs d.data_start d.compressed_size)

/-- TreArchive::by_index, restricted to the metadata it hands out. -/
def byIndexData (s : Shared) (i : Nat) : Except TreError TreFileData :=
  match s.files[i]? with
  | some p => .ok p.2
  | Option.none => .error (.fileNotFoundIndex i)

/-- TreArchive::by_name: get_index_of followed by by_index. -/
def byNameData (s : Shared) (k : Bytes) : Except TreError TreFileData :=
  match imIndexOf s.files k with
  | some i => byIndexData s i
  | Option.none => .error (.fileNotFoundName k)

/-- Reading a little-endian u16 code unit from the front of a stream. -/
def readU16 : Bytes → Except ReadErr (Nat × Bytes)
  | b0 :: b1 :: rest => .ok (b0 + 256 * b1, rest)
  | _ => .error .eof

/-- Finalized on-disk bytes of one entry: the payload run through its
per-entry block writer. -/
def entryDisk (deflate : Bytes → Bytes) (e : WEntry) : Bytes :=
  encBlock deflate e.method e.payload

/-- The records the writer produces for an entry list, with running data
offset and running name offset. -/
def specRecs (deflate : Bytes → Bytes) : List WEntry → Nat → Nat → List TreRecord
  | [], _, _ => []
  | e :: rest, doff, noff =>
    { checksum := crc32bzip2 e.name
      data_uncompressed := e.payload.length
      data_offset := doff
      data_compression := e.method
      data_compressed := (entryDisk deflate e).length
      name_offset := noff } ::
      specRecs deflate rest (doff + (entryDisk deflate e).length) (noff + e.name.length + 1)

/-- The writer state after the round-trip call pattern, with the last entry
closed. -/
def runArchive (deflate : Bytes → Bytes) (opts : TreWriterOptions)
    (S : List WEntry) : TreWriter :=
  ((TreWriter.new opts).runOps deflate (entriesTrace S)).finishPending deflate

/-- Metadata of the last occurrence of a name in the zipped record/name list
(what the reader map retains for duplicate names). -/
def lastMeta (ps : List (TreRecord × Bytes)) (k : Bytes) : Option TreFileData :=
  (ps.reverse.find? fun p => p.2 = k).map fun p => mkFileData p.1 p.2

/-- Layout invariant every reachable writer state satisfies: disks and
records run in parallel, each finished record stores its chunk's on-disk
length and the data offset 36 plus the lengths of the chunks before it, the
in-progress record points just past the data written so far, and the record
counter counts finished records plus the open one. -/
def WriterInv (w : TreWriter) : Prop :=
  w.disks.length = w.infoRecs.length ∧
  (∀ i : Nat, ∀ r d, w.infoRecs[i]? = some r → w.disks[i]? = some d →
      r.data_compressed = d.length ∧ r.data_offset = 36 + sumLens (w.disks.take i)) ∧
  (w.writingToFile = true → w.record.data_offset = 36 + sumLens w.disks) ∧
  w.records = w.infoRecs.length + (if w.writingToFile = true then 1 else 0)

/-- Names passed to start_file along a call sequence, in call order. -/
def traceNames : List WriterOp → List Bytes
  | [] => []
  | .startOp n _ :: rest => n :: traceNames rest
  | .writeOp _ :: rest => traceNames rest
  | .finishFileOp :: rest => traceNames rest

/-- A hand-built archive whose two records share the name "a": record 0 has
checksum 1 and name_offset 0, record 1 has checksum 2 and name_offset 2. -/
def c7bytes : Bytes :=
  treMagic ++ u32le 2 ++ u32le 36 ++ u32le 0 ++ u32le 48 ++ u32le 0 ++ u32le 4 ++ u32le 4 ++
    (u32le 1 ++ u32le 0 ++ u32le 36 ++ u32le 0 ++ u32le 0 ++ u32le 0) ++
    (u32le 2 ++ u32le 0 ++ u32le 36 ++ u32le 0 ++ u32le 0 ++ u32le 2) ++
    [97, 0, 97, 0]

/-- Truncation a record undergoes through its 4-byte fields. -/
def truncRecord (r : TreRecord) : TreRecord :=
  { checksum := r.checksum % 2 ^ 32
    data_uncompressed := r.data_uncompressed % 2 ^ 32
    data_offset := r.data_offset % 2 ^ 32
    data_compression := r.data_compression
    data_compressed := r.data_compressed % 2 ^ 32
    name_offset := r.name_offset % 2 ^ 32 }

/-- Truncation a header undergoes through its 4-byte fields. -/
def truncHeader (h : TreHeader) : TreHeader :=
  { records := h.records % 2 ^ 32
    record_start := h.record_start % 2 ^ 32
    record_compression := h.record_compression
    record_compressed := h.record_compressed % 2 ^ 32
    name_compression := h.name_compression
    name_compressed := h.name_compressed % 2 ^ 32
    name_uncompressed := h.name_uncompressed % 2 ^ 32 }

end SwgTre


namespace SwgStf

open SwgTre (Bytes readU8 readU32 readU16 ReadErr imInsert imFind)

/-- Error surface of the swg_stf crate: an I/O failure (eof), the bad-magic
InvalidFile error, or a key that is not valid UTF-8. -/
inductive StfErr
  | ioEof
  | invalidFile
  | utf8Error
deriving DecidableEq

/-- States of the UTF-8 validation automaton behind String::from_utf8:
how many continuation bytes are still expected, with the constrained
second-byte cases (E0, ED, F0, F4) kept apart. -/
inductive Utf8State
  | ok
  | one
  | two
  | twoE0
  | twoED
  | three
  | threeF0
  | threeF4
  | bad
deriving DecidableEq

/-- One byte of UTF-8 validation. -/
def utf8Step : Utf8State → Nat → Utf8State
  | .ok, b =>
    if b < 0x80 then .ok
    else if b < 0xC2 then .bad
    else if b ≤ 0xDF then .one
    else if b = 0xE0 then .twoE0
    else if b = 0xED then .twoED
    else if b ≤ 0xEF then .two
    else if b = 0xF0 then .threeF0
    else if b ≤ 0xF3 then .three
    else if b = 0xF4 then .threeF4
    else .bad
  | .one, b => if 0x80 ≤ b ∧ b ≤ 0xBF then .ok else .bad
  | .two, b => if 0x80 ≤ b ∧ b ≤ 0xBF then .one else .bad
  | .twoE0, b => if 0xA0 ≤ b ∧ b ≤ 0xBF then .one else .bad
  | .twoED, b => if 0x80 ≤ b ∧ b ≤ 0x9F then .one else .bad
  | .three, b => if 0x80 ≤ b ∧ b ≤ 0xBF then .two else .bad
  | .threeF0, b => if 0x90 ≤ b ∧ b ≤ 0xBF then .two else .bad
  | .threeF4, b => if 0x80 ≤ b ∧ b ≤ 0x8F then .two else .bad
  | .bad, _ => .bad

/-- Whether a byte string is valid UTF-8 (String::from_utf8 succeeds). -/
def validUtf8 (bs : Bytes) : Bool := bs.foldl utf8Step .ok = .ok

/-- Reading the requested number of UTF-16 code units. -/
def readUnits : Nat → Bytes → Except StfErr (List Nat × Bytes)
  | 0, bs => .ok ([], bs)
  | n + 1, bs =>
    match readU16 bs with
    | .error _ => .error .ioEof
    | .ok (u, s) => do
      let (us, s1) ← readUnits n s
      pure (u :: us, s1)

/-- Reading the requested number of key bytes. -/
def readChars : Nat → Bytes → Except StfErr (List Nat × Bytes)
  | 0, bs => .ok ([], bs)
  | n + 1, bs =>
    match readU8 bs with
    | .error _ => .error .ioEof
    | .ok (b, s) => do
      let (cs, s1) ← readChars n s
      pure (b :: cs, s1)

/-- Lifting a u32 read into the STF error surface. -/
def readU32s (bs : Bytes) : Except StfErr (Nat × Bytes) :=
  match readU32 bs with
  | .error _ => .error .ioEof
  | .ok r => .ok r

/-- One STF value record: id, ignored 0xFFFFFFFF word, rune count, then that
many UTF-16LE code units. -/
def readValueRecord (bs : Bytes) : Except StfErr ((Nat × List Nat) × Bytes) := do
  let (id, s) ← readU32s bs
  let (_unknown, s) ← readU32s s
  let (runes, s) ← readU32s s
  let (units, s) ← readUnits runes s
  pure ((id, units), s)

/-- One STF key record: id, rune count, then that many bytes, which must be
valid UTF-8. -/
def readKeyRecord (bs : Bytes) : Except StfErr ((Nat × List Nat) × Bytes) := do
  let (id, s) ← readU32s bs
  let (runes, s) ← readU32s s
  let (chars, s) ← readChars runes s
  if validUtf8 chars then pure ((id, chars), s) else .error .utf8Error

/-- Reading the requested number of value records. -/
def readValueRecords : Nat → Bytes → Except StfErr (List (Nat × List Nat) × Bytes)
  | 0, bs => .ok ([], bs)
  | n + 1, bs => do
    let (v, s) ← readValueRecord bs
    let (vs, s1) ← readValueRecords n s
    pure (v :: vs, s1)

/-- Reading the requested number of key records. -/
def readKeyRecords : Nat → Bytes → Except StfErr (List (Nat × List Nat) × Bytes)
  | 0, bs => .ok ([], bs)
  | n + 1, bs => do
    let (k, s) ← readKeyRecord bs
    let (ks, s1) ← readKeyRecords n s
    pure (k :: ks, s1)

/-- Collecting records into a map keyed by id, later inserts replacing
earlier ones, as HashMap::insert does.  (The model fixes an iteration order;
the source HashMap leaves it unspecified, and every property stated below is
order-independent.) -/
def hmOfList {β : Type} (l : List (Nat × β)) : List (Nat × β) :=
  l.foldl (fun m p => imInsert m p.1 p.2) []

/-- The id-join of parsed key records against parsed value records: each key
whose id has a value yields an entry, others are dropped; the pairs are then
collected into the entries map keyed by the key string. -/
def stfEntries (vals keys : List (Nat × List Nat)) : List (List Nat × List Nat) :=
  ((hmOfList keys).filterMap fun p => (imFind (hmOfList vals) p.1).map fun v => (p.2, v)).foldl
    (fun m e => imInsert m e.1 e.2) []

/-- The parsed string table: entries map from key bytes to UTF-16 code
units. -/
structure StringTableReader where
  entries : List (List Nat × List Nat)
deriving DecidableEq

/-- StringTableReader::new: magic check, header words, the value records,
the key records, then the id-join. -/
def StringTableReader.new (bs : Bytes) : Except StfErr StringTableReader := do
  let (magic, s) ← readU32s bs
  if magic ≠ 0x0000ABCD then .error .invalidFile
  else do
    let (_flag, s) ← match readU8 s with
      | .error _ => Except.error StfErr.ioEof
      | .ok r => Except.ok r
    let (_next_index, s) ← readU32s s
    let (count, s) ← readU32s s
    let (vals, s) ← readValueRecords count s
    let (keys, _) ← readKeyRecords count s
    pure { entries := stfEntries vals keys }

/-- Lookup in the entries map (StringTableReader::by_id). -/
def StringTableReader.by_id (st : StringTableReader) (k : List Nat) :
    Option (List Nat) :=
  imFind st.entries k

end SwgStf

namespace SwgTre

/-! Serialization and parsing round-trip lemmas. -/

theorem u32le_length (n : Nat) : (u32le n).length = 4 := rfl

theorem okBind {ε α β : Type} (a : α) (f : α → Except ε β) :
    (Except.ok a : Except ε α) >>= f = f a := rfl

theorem pureExcept {ε α : Type} (a : α) : (pure a : Except ε α) = Except.ok a := rfl

theorem readU32_u32le (n : Nat) (rest : Bytes) :
    readU32 (u32le n ++ rest) = .ok (n % 2 ^ 32, rest) := by
  have h : n % 256 + 256 * (n / 256 % 256 + 256 * (n / 65536 % 256 + 256 * (n / 16777216 % 256)))
      = n % 2 ^ 32 := by omega
  simp only [u32le, List.cons_append, List.nil_append, readU32, h]

theorem ofU32_toU32 (c : CompressionMethod) :
    CompressionMethod.ofU32 c.toU32 = some c := by
  cases c <;> rfl

theorem toU32_lt (c : CompressionMethod) : c.toU32 < 2 ^ 32 := by
  cases c <;> decide

theorem readCompression_toU32 (c : CompressionMethod) (rest : Bytes) :
    readCompression (u32le c.toU32 ++ rest) = .ok (c, rest) := by
  have h : c.toU32 % 2 ^ 32 = c.toU32 := Nat.mod_eq_of_lt (toU32_lt c)
  simp only [readCompression, readU32_u32le, h, okBind, ofU32_toU32]
  rfl

theorem readRecord_toBytes (r : TreRecord) (rest : Bytes) :
    readRecord (r.toBytes ++ rest) = .ok (truncRecord r, rest) := by
  simp only [readRecord, TreRecord.toBytes, List.append_assoc, readU32_u32le,
    readCompression_toU32, okBind, truncRecord]
  rfl

theorem readRecords_flatten (rs : List TreRecord) :
    readRecords rs.length ((rs.map TreRecord.toBytes).flatten) =
      .ok (rs.map truncRecord) := by
  suffices h : ∀ rest, readRecords rs.length ((rs.map TreRecord.toBytes).flatten ++ rest) =
      .ok (rs.map truncRecord) by
    have := h []
    rwa [List.append_nil] at this
  induction rs with
  | nil => intro rest; rfl
  | cons r rs ih =>
    intro rest
    simp only [List.map_cons, List.flatten_cons, List.length_cons, readRecords,
      List.append_assoc, readRecord_toBytes, okBind, ih, pureExcept]

theorem readHeader_toBytes (h : TreHeader) (rest : Bytes) :
    readHeader (h.toBytes ++ rest) = .ok (truncHeader h) := by
  have hm : ((h.toBytes ++ rest).take 8) = treMagic := by
    simp only [TreHeader.toBytes, treMagic, List.append_assoc, List.cons_append,
      List.nil_append, List.take_succ_cons, List.take_zero]
  have hl : ¬ (h.toBytes ++ rest).length < 8 := by
    simp only [TreHeader.toBytes, treMagic, List.append_assoc, List.length_append,
      List.length_cons]
    omega
  have hd : ((h.toBytes ++ rest).drop 8) =
      u32le h.records ++ (u32le h.record_start ++ (u32le h.record_compression.toU32 ++
        (u32le h.record_compressed ++ (u32le h.name_compression.toU32 ++
        (u32le h.name_compressed ++ (u32le h.name_uncompressed ++ rest)))))) := by
    simp only [TreHeader.toBytes, treMagic, List.append_assoc, List.cons_append,
      List.nil_append, List.drop_succ_cons, List.drop_zero]
  rw [readHeader, if_neg hl, if_neg (by rw [hm]; exact fun hc => hc rfl)]
  rw [hd]
  simp only [readU32_u32le, readCompression_toU32, okBind, truncHeader]
  rfl

theorem readName_of_noNul (n : Bytes) (rest : Bytes) (hn : 0 ∉ n) :
    readName (n ++ 0 :: rest) = .ok (n, rest) := by
  induction n with
  | nil => rfl
  | cons b bs ih =>
    have hb : b ≠ 0 := fun hb => hn (by simp [hb])
    have hbs : 0 ∉ bs := fun hm => hn (List.mem_cons_of_mem _ hm)
    simp only [List.cons_append, readName, List.append_eq, if_neg hb, ih hbs, okBind, pureExcept]

theorem readNames_flatten (ns : List Bytes) (hn : ∀ n ∈ ns, 0 ∉ n) :
    readNames ns.length ((ns.map fun n => n ++ [0]).flatten) = .ok ns := by
  suffices h : ∀ rest, readNames ns.length ((ns.map fun n => n ++ [0]).flatten ++ rest) =
      .ok ns by
    have := h []
    rwa [List.append_nil] at this
  induction ns with
  | nil => intro rest; rfl
  | cons n ns ih =>
    intro rest
    have h0 : 0 ∉ n := hn n (List.mem_cons_self n ns)
    have hns : ∀ m ∈ ns, 0 ∉ m := fun m hm => hn m (List.mem_cons_of_mem _ hm)
    simp only [List.map_cons, List.flatten_cons, List.length_cons, readNames,
      List.append_assoc, List.cons_append, List.nil_append, readName_of_noNul n _ h0,
      okBind, ih hns, pureExcept]

theorem decodeBlock_encBlock (deflate : Bytes → Bytes) (inflate : Bytes → Option Bytes)
    (hz : ∀ x, inflate (deflate x) = some x) (c : CompressionMethod) (bs : Bytes) :
    decodeBlock inflate c (encBlock deflate c bs) = .ok bs := by
  cases c
  · rfl
  · simp only [encBlock, decodeBlock, hz]

theorem header_toBytes_length (h : TreHeader) : h.toBytes.length = 36 := by
  simp [TreHeader.toBytes, treMagic, u32le]

theorem slice_eq (bs : Bytes) (s l : Nat) : slice bs s l = (bs.drop s).take l := rfl

theorem slice_middle (A B C : Bytes) : slice (A ++ (B ++ C)) A.length B.length = B := by
  simp [slice, List.drop_left, List.take_left]


/-! Writer state lemmas. -/

theorem finishFile_writingToFile (deflate : Bytes → Bytes) (w : TreWriter) :
    (w.finishFile deflate).writingToFile = false := rfl

theorem startFile_writingToFile (deflate : Bytes → Bytes) (w : TreWriter)
    (n : Bytes) (c : CompressionMethod) :
    (w.startFile deflate n c).writingToFile = true := rfl

theorem finishPending_of_false (deflate : Bytes → Bytes) (w : TreWriter)
    (hw : w.writingToFile = false) : w.finishPending deflate = w := by
  simp [TreWriter.finishPending, hw]

theorem finishPending_of_true (deflate : Bytes → Bytes) (w : TreWriter)
    (hw : w.writingToFile = true) : w.finishPending deflate = w.finishFile deflate := by
  simp [TreWriter.finishPending, hw]

theorem startFile_of_open (deflate : Bytes → Bytes) (w : TreWriter)
    (n : Bytes) (c : CompressionMethod) (hw : w.writingToFile = true) :
    w.startFile deflate n c = (w.finishFile deflate).startFile deflate n c := by
  rw [TreWriter.startFile, TreWriter.startFile, finishPending_of_true deflate w hw,
    finishPending_of_false deflate (w.finishFile deflate) (finishFile_writingToFile deflate w)]

theorem entriesTrace_cons (e : WEntry) (S : List WEntry) :
    entriesTrace (e :: S) =
      .startOp e.name e.method :: .writeOp e.payload :: entriesTrace S := rfl

theorem runOps_cons (deflate : Bytes → Bytes) (w : TreWriter) (op : WriterOp)
    (t : List WriterOp) :
    w.runOps deflate (op :: t) = (w.step deflate op).runOps deflate t := rfl

theorem step_startOp (deflate : Bytes → Bytes) (w : TreWriter) (n : Bytes)
    (c : CompressionMethod) :
    w.step deflate (.startOp n c) = w.startFile deflate n c := rfl

theorem runEntries_flush (deflate : Bytes → Bytes) (S : List WEntry) (w : TreWriter)
    (hw : w.writingToFile = true) :
    (w.runOps deflate (entriesTrace S)).finishPending deflate =
      ((w.finishFile deflate).runOps deflate (entriesTrace S)).finishPending deflate := by
  cases S with
  | nil =>
    simp only [entriesTrace, List.flatMap_nil, TreWriter.runOps]
    rw [finishPending_of_true deflate w hw,
      finishPending_of_false deflate _ (finishFile_writingToFile deflate w)]
  | cons e S =>
    rw [entriesTrace_cons, runOps_cons, runOps_cons, runOps_cons, runOps_cons]
    simp only [TreWriter.step]
    rw [startFile_of_open deflate w e.name e.method hw]


theorem procEntry_eq (deflate : Bytes → Bytes) (w : TreWriter) (e : WEntry)
    (hw : w.writingToFile = false) (hs : w.statsNameOffset = w.nameIn.length) :
    ((w.startFile deflate e.name e.method).step deflate (.writeOp e.payload)).finishFile deflate
      = { w with
          writingToFile := false
          records := w.records + 1
          infoRecs := w.infoRecs ++
            [{ checksum := crc32bzip2 e.name, data_uncompressed := e.payload.length,
               data_offset := 36 + sumLens w.disks, data_compression := e.method,
               data_compressed := (entryDisk deflate e).length,
               name_offset := w.nameIn.length }]
          disks := w.disks ++ [entryDisk deflate e]
          nameIn := w.nameIn ++ e.name ++ [0]
          currentCompression := e.method
          currentIn := []
          statsInfoOffset := w.statsInfoOffset + 24
          statsNameOffset := w.nameIn.length + e.name.length + 1
          record :=
            { checksum := crc32bzip2 e.name, data_uncompressed := e.payload.length,
              data_offset := 36 + sumLens w.disks, data_compression := e.method,
              data_compressed := (entryDisk deflate e).length,
              name_offset := w.nameIn.length } } := by
  simp [TreWriter.step, TreWriter.write, TreWriter.startFile, TreWriter.finishFile,
    TreWriter.finishPending, hw, hs, entryDisk]


theorem runEntries_spec (deflate : Bytes → Bytes) (S : List WEntry) :
    ∀ (w : TreWriter), w.writingToFile = false →
    w.statsNameOffset = w.nameIn.length →
    ((w.runOps deflate (entriesTrace S)).finishPending deflate)
      = { w with
          infoRecs := w.infoRecs ++ specRecs deflate S (36 + sumLens w.disks) w.nameIn.length
          disks := w.disks ++ S.map (entryDisk deflate)
          nameIn := w.nameIn ++ (S.map fun e => e.name ++ [0]).flatten
          records := w.records + S.length
          writingToFile := false
          currentCompression :=
            ((w.runOps deflate (entriesTrace S)).finishPending deflate).currentCompression
          currentIn := ((w.runOps deflate (entriesTrace S)).finishPending deflate).currentIn
          statsInfoOffset := ((w.runOps deflate (entriesTrace S)).finishPending deflate).statsInfoOffset
          statsNameOffset := ((w.runOps deflate (entriesTrace S)).finishPending deflate).statsNameOffset
          record := ((w.runOps deflate (entriesTrace S)).finishPending deflate).record } := by
  induction S with
  | nil =>
    intro w hw _hs
    simp only [entriesTrace, List.flatMap_nil, TreWriter.runOps,
      finishPending_of_false deflate w hw, specRecs, List.append_nil, List.map_nil,
      List.flatten_nil, List.length_nil, Nat.add_zero]
    cases w
    simp_all
  | cons e S ih =>
    intro w hw hs
    rw [entriesTrace_cons, runOps_cons, runOps_cons, step_startOp]
    have hflush := runEntries_flush deflate S
      ((w.startFile deflate e.name e.method).step deflate (.writeOp e.payload))
      (by rw [TreWriter.step, TreWriter.write]; simp [startFile_writingToFile])
    rw [hflush]
    rw [procEntry_eq deflate w e hw hs]
    rw [ih _ rfl (by simp; omega)]
    simp [specRecs, List.map_cons, List.flatten_cons, List.length_cons, sumLens,
      List.map_append, List.sum_append, List.sum_cons, List.sum_nil,
      List.length_append, List.length_nil, List.append_assoc,
      List.cons_append, List.nil_append, List.singleton_append,
      Nat.add_assoc, Nat.add_comm, Nat.add_left_comm]


/-! Invariant preservation along any client call sequence. -/

theorem sumLens_take_get (l : List Bytes) (i : Nat) (d : Bytes) (h : l[i]? = some d) :
    sumLens (l.take i) + d.length ≤ sumLens l := by
  have hi : i < l.length := (List.getElem?_eq_some.mp h).1
  have hd : l[i] = d := by
    have := List.getElem?_eq_getElem hi
    rw [h] at this
    exact (Option.some.injEq _ _ ▸ this.symm)
  have hsplit : l = l.take i ++ l.drop i := (List.take_append_drop i l).symm
  have hdrop : l.drop i = d :: l.drop (i + 1) := by
    rw [List.drop_eq_getElem_cons hi, hd]
  calc sumLens (l.take i) + d.length
      ≤ sumLens (l.take i) + (d.length + sumLens (l.drop (i + 1))) := by omega
    _ = sumLens (l.take i) + sumLens (l.drop i) := by
        rw [hdrop]; simp [sumLens]
    _ = sumLens l := by
        conv_rhs => rw [hsplit]
        simp [sumLens]

theorem writerInv_new (opts : TreWriterOptions) : WriterInv (TreWriter.new opts) := by
  refine ⟨rfl, ?_, ?_, rfl⟩
  · intro i r d hr _
    simp [TreWriter.new] at hr
  · intro h
    simp [TreWriter.new] at h

theorem writerInv_finishFile (deflate : Bytes → Bytes) (w : TreWriter)
    (hw : w.writingToFile = true) (hinv : WriterInv w) :
    WriterInv (w.finishFile deflate) := by
  obtain ⟨hlen, hidx, hpend, hcount⟩ := hinv
  refine ⟨?_, ?_, ?_, ?_⟩
  · simp [TreWriter.finishFile, hlen]
  · intro i r d hr hd
    simp only [TreWriter.finishFile] at hr hd ⊢
    by_cases hi : i < w.infoRecs.length
    · rw [List.getElem?_append_left hi] at hr
      rw [List.getElem?_append_left (hlen ▸ hi)] at hd
      have := hidx i r d hr hd
      refine ⟨this.1, ?_⟩
      rw [List.take_append_of_le_length (by omega : i ≤ w.disks.length)]
      exact this.2
    · have hieq : i = w.infoRecs.length := by
        by_contra hne
        have h1 : w.infoRecs.length + 1 ≤ i := by omega
        rw [List.getElem?_append_right (by omega)] at hr
        have h2 : i - w.infoRecs.length ≥ 1 := by omega
        rw [List.getElem?_eq_none (by simp; omega)] at hr
        exact Option.noConfusion hr
      subst hieq
      rw [List.getElem?_concat_length] at hr
      rw [← hlen, List.getElem?_concat_length] at hd
      injection hr with hr1
      injection hd with hd1
      subst hr1
      subst hd1
      refine ⟨rfl, ?_⟩
      rw [← hlen, List.take_append_of_le_length (le_refl _), List.take_length]
      exact hpend hw
  · intro h
    simp [TreWriter.finishFile] at h
  · simp [TreWriter.finishFile, hcount, hw]

theorem writerInv_finishPending (deflate : Bytes → Bytes) (w : TreWriter)
    (hinv : WriterInv w) : WriterInv (w.finishPending deflate) := by
  rw [TreWriter.finishPending]
  split
  · exact writerInv_finishFile deflate w (by assumption) hinv
  · exact hinv

theorem writerInv_startFile (deflate : Bytes → Bytes) (w : TreWriter) (n : Bytes)
    (c : CompressionMethod) (hinv : WriterInv w) :
    WriterInv (w.startFile deflate n c) := by
  have hmid := writerInv_finishPending deflate w hinv
  obtain ⟨hlen, hidx, _hpend, hcount⟩ := hmid
  have hflag : (w.finishPending deflate).writingToFile = false := by
    rw [TreWriter.finishPending]
    split
    · exact finishFile_writingToFile deflate w
    · simp_all
  rw [TreWriter.startFile]
  refine ⟨hlen, hidx, ?_, ?_⟩
  · intro _
    rfl
  · show (w.finishPending deflate).records + 1 = (w.finishPending deflate).infoRecs.length + _
    rw [hcount, hflag]
    simp

theorem writerInv_step (deflate : Bytes → Bytes) (w : TreWriter) (op : WriterOp)
    (hinv : WriterInv w) : WriterInv (w.step deflate op) := by
  cases op with
  | startOp n c => exact writerInv_startFile deflate w n c hinv
  | writeOp buf =>
    by_cases hw : w.writingToFile = true
    · have hstep : w.step deflate (.writeOp buf) = { w with currentIn := w.currentIn ++ buf } := by
        rw [TreWriter.step, TreWriter.write]
        simp [hw]
      rw [hstep]
      exact hinv
    · have hw2 : w.writingToFile = false := by
        revert hw
        cases w.writingToFile <;> simp
      have hstep : w.step deflate (.writeOp buf) = w := by
        rw [TreWriter.step, TreWriter.write]
        simp [hw2]
      rw [hstep]
      exact hinv
  | finishFileOp => exact writerInv_finishPending deflate w hinv

theorem writerInv_runOps (deflate : Bytes → Bytes) (t : List WriterOp) :
    ∀ (w : TreWriter), WriterInv w → WriterInv (w.runOps deflate t) := by
  induction t with
  | nil => intro w h; exact h
  | cons op rest ih =>
    intro w h
    exact ih _ (writerInv_step deflate w op h)


/-! Parsing the archive a closed writer emits. -/

theorem length_dataBlock (w : TreWriter) : w.disks.flatten.length = sumLens w.disks := by
  simp [sumLens]

theorem finish_of_closed (deflate md5 : Bytes → Bytes) (w : TreWriter)
    (hw : w.writingToFile = false) :
    w.finish deflate md5 =
      TreHeader.toBytes
        { records := w.records
          record_start := 36 + w.disks.flatten.length
          record_compression := w.recordCompression
          record_compressed :=
            (encBlock deflate w.recordCompression
              ((w.infoRecs.map TreRecord.toBytes).flatten)).length
          name_compression := w.nameCompression
          name_compressed := (encBlock deflate w.nameCompression w.nameIn).length
          name_uncompressed := w.nameIn.length } ++
      (w.disks.flatten ++
        (encBlock deflate w.recordCompression ((w.infoRecs.map TreRecord.toBytes).flatten) ++
          (encBlock deflate w.nameCompression w.nameIn ++ (w.disks.map md5).flatten))) := by
  rw [TreWriter.finish, finishPending_of_false deflate w hw]
  simp [List.append_assoc]

theorem parse_finish (deflate md5 : Bytes → Bytes) (inflate : Bytes → Option Bytes)
    (hz : ∀ x, inflate (deflate x) = some x) (w : TreWriter)
    (hw : w.writingToFile = false)
    (hd : 36 + sumLens w.disks < 2 ^ 32)
    (hi : (encBlock deflate w.recordCompression
        ((w.infoRecs.map TreRecord.toBytes).flatten)).length < 2 ^ 32)
    (hN : w.records < 2 ^ 32)
    (hrec : w.records = w.infoRecs.length) :
    readHeader (w.finish deflate md5) = .ok
      { records := w.records
        record_start := 36 + sumLens w.disks
        record_compression := w.recordCompression
        record_compressed :=
          (encBlock deflate w.recordCompression
            ((w.infoRecs.map TreRecord.toBytes).flatten)).length
        name_compression := w.nameCompression
        name_compressed := (encBlock deflate w.nameCompression w.nameIn).length % 2 ^ 32
        name_uncompressed := w.nameIn.length % 2 ^ 32 } ∧
    decodeBlock inflate w.recordCompression
        (slice (w.finish deflate md5) (36 + sumLens w.disks)
          (encBlock deflate w.recordCompression
            ((w.infoRecs.map TreRecord.toBytes).flatten)).length) =
      .ok ((w.infoRecs.map TreRecord.toBytes).flatten) ∧
    readRecords w.records ((w.infoRecs.map TreRecord.toBytes).flatten) =
      .ok (w.infoRecs.map truncRecord) := by
  refine ⟨?_, ?_, ?_⟩
  · rw [finish_of_closed deflate md5 w hw, readHeader_toBytes]
    congr 1
    rw [truncHeader]
    simp only [length_dataBlock]
    congr 1 <;> omega
  · rw [finish_of_closed deflate md5 w hw]
    rw [← List.append_assoc]
    have hL : 36 + sumLens w.disks =
        (TreHeader.toBytes
          { records := w.records
            record_start := 36 + w.disks.flatten.length
            record_compression := w.recordCompression
            record_compressed :=
              (encBlock deflate w.recordCompression
                ((w.infoRecs.map TreRecord.toBytes).flatten)).length
            name_compression := w.nameCompression
            name_compressed := (encBlock deflate w.nameCompression w.nameIn).length
            name_uncompressed := w.nameIn.length } ++ w.disks.flatten).length := by
      simp [header_toBytes_length, length_dataBlock, sumLens]
    rw [hL, slice_middle]
    exact decodeBlock_encBlock deflate inflate hz _ _
  · rw [hrec]
    exact readRecords_flatten w.infoRecs

theorem inv_trunc_dc (w : TreWriter) (hinv : WriterInv w)
    (hd : 36 + sumLens w.disks < 2 ^ 32) :
    (w.infoRecs.map truncRecord).map TreRecord.data_compressed = w.disks.map List.length := by
  obtain ⟨hlen, hidx, _, _⟩ := hinv
  apply List.ext_getElem?
  intro i
  rw [List.getElem?_map, List.getElem?_map, List.getElem?_map]
  cases hri : w.infoRecs[i]? with
  | none =>
    have hni : w.infoRecs.length ≤ i := by
      by_contra hlt
      rw [List.getElem?_eq_getElem (by omega)] at hri
      exact Option.noConfusion hri
    rw [List.getElem?_eq_none (by omega)]
    rfl
  | some r =>
    have hii : i < w.infoRecs.length := (List.getElem?_eq_some.mp hri).1
    have hdi : i < w.disks.length := by omega
    have hdd := List.getElem?_eq_getElem hdi
    have hfact := hidx i r w.disks[i] hri hdd
    rw [hdd]
    have hle := sumLens_take_get w.disks i w.disks[i] hdd
    show some (truncRecord r).data_compressed = some w.disks[i].length
    congr 1
    simp only [truncRecord]
    rw [hfact.1]
    omega

theorem inv_trunc_off (w : TreWriter) (hinv : WriterInv w)
    (hd : 36 + sumLens w.disks < 2 ^ 32) (i : Nat) (r : TreRecord)
    (hr : (w.infoRecs.map truncRecord)[i]? = some r) :
    r.data_offset = 36 + sumLens (w.disks.take i) := by
  obtain ⟨hlen, hidx, _, _⟩ := hinv
  rw [List.getElem?_map] at hr
  cases hri : w.infoRecs[i]? with
  | none => rw [hri] at hr; exact Option.noConfusion hr
  | some r0 =>
    rw [hri] at hr
    have hr2 : some (truncRecord r0) = some r := hr
    injection hr2 with hr1
    subst hr1
    have hii : i < w.infoRecs.length := (List.getElem?_eq_some.mp hri).1
    have hdi : i < w.disks.length := by omega
    have hdd := List.getElem?_eq_getElem hdi
    have hfact := hidx i r0 w.disks[i] hri hdd
    have hle := sumLens_take_get w.disks i w.disks[i] hdd
    simp only [truncRecord]
    rw [hfact.2]
    have : sumLens (w.disks.take i) ≤ sumLens w.disks := by
      have := sumLens_take_get w.disks i w.disks[i] hdd
      omega
    omega


theorem finishPending_flag (deflate : Bytes → Bytes) (w : TreWriter) :
    (w.finishPending deflate).writingToFile = false := by
  rw [TreWriter.finishPending]
  split
  · exact finishFile_writingToFile deflate w
  · simp_all

theorem finish_via_pending (deflate md5 : Bytes → Bytes) (w : TreWriter) :
    w.finish deflate md5 = (w.finishPending deflate).finish deflate md5 := by
  rw [TreWriter.finish, TreWriter.finish,
    finishPending_of_false deflate _ (finishPending_flag deflate w)]

/-- Claim C2: for every archive produced by TreWriter::finish after any
sequence of start_file/write/finish_file calls (with on-disk quantities in
u32 range and an inflate inverting deflate), the header's record_start is 36
plus the total of the records' data_compressed fields, and record i's
data_offset is 36 plus the data_compressed of the records before it — as read
back from the produced bytes by the archive parser. -/
theorem claim_C2 (deflate md5 : Bytes → Bytes) (inflate : Bytes → Option Bytes)
    (hz : ∀ x, inflate (deflate x) = some x)
    (opts : TreWriterOptions) (t : List WriterOp)
    (hd : 36 + sumLens (((TreWriter.new opts).runOps deflate t).finishPending deflate).disks
        < 2 ^ 32)
    (hi : (encBlock deflate
          (((TreWriter.new opts).runOps deflate t).finishPending deflate).recordCompression
          (((((TreWriter.new opts).runOps deflate t).finishPending deflate).infoRecs).map
            TreRecord.toBytes).flatten).length < 2 ^ 32)
    (hN : (((TreWriter.new opts).runOps deflate t).finishPending deflate).records < 2 ^ 32) :
    ∃ h blk rs,
      readHeader (((TreWriter.new opts).runOps deflate t).finish deflate md5) = .ok h ∧
      decodeBlock inflate h.record_compression
          (slice (((TreWriter.new opts).runOps deflate t).finish deflate md5)
            h.record_start h.record_compressed) = .ok blk ∧
      readRecords h.records blk = .ok rs ∧
      h.record_start = 36 + (rs.map TreRecord.data_compressed).sum ∧
      (∀ i : Nat, ∀ r, rs[i]? = some r →
        r.data_offset = 36 + ((rs.take i).map TreRecord.data_compressed).sum) := by
  set w0 := (TreWriter.new opts).runOps deflate t with hw0
  set w := w0.finishPending deflate with hwdef
  have hwflag : w.writingToFile = false := finishPending_flag deflate w0
  have hinv : WriterInv w :=
    writerInv_finishPending deflate w0
      (writerInv_runOps deflate t (TreWriter.new opts) (writerInv_new opts))
  have hrec : w.records = w.infoRecs.length := by
    have hc := hinv.2.2.2
    rw [hwflag] at hc
    simpa using hc
  have hout : w0.finish deflate md5 = w.finish deflate md5 := finish_via_pending deflate md5 w0
  have hp := parse_finish deflate md5 inflate hz w hwflag hd hi hN hrec
  refine ⟨{ records := w.records
            record_start := 36 + sumLens w.disks
            record_compression := w.recordCompression
            record_compressed :=
              (encBlock deflate w.recordCompression
                ((w.infoRecs.map TreRecord.toBytes).flatten)).length
            name_compression := w.nameCompression
            name_compressed := (encBlock deflate w.nameCompression w.nameIn).length % 2 ^ 32
            name_uncompressed := w.nameIn.length % 2 ^ 32 },
          (w.infoRecs.map TreRecord.toBytes).flatten,
          w.infoRecs.map truncRecord, ?_, ?_, ?_, ?_, ?_⟩
  · rw [hout]; exact hp.1
  · rw [hout]
    exact hp.2.1
  · exact hp.2.2
  · have hdc := inv_trunc_dc w hinv hd
    rw [hdc]
    have : (w.disks.map List.length).sum = sumLens w.disks := rfl
    rw [this]
  · intro i r hr
    have hoff := inv_trunc_off w hinv hd i r hr
    have hdc := inv_trunc_dc w hinv hd
    rw [hoff, List.map_take, hdc, ← List.map_take]
    have : ((w.disks.take i).map List.length).sum = sumLens (w.disks.take i) := rfl
    rw [this]


/-- Witness instantiating claim C2 on a concrete two-call trace with the
identity codec. -/
theorem claim_C2_witness :
    ∃ h blk rs,
      readHeader (((TreWriter.new ⟨.none, .none⟩).runOps id
          [.startOp [97] .none, .writeOp [1, 2, 3]]).finish id (fun _ => [])) = .ok h ∧
      decodeBlock some h.record_compression
          (slice (((TreWriter.new ⟨.none, .none⟩).runOps id
              [.startOp [97] .none, .writeOp [1, 2, 3]]).finish id (fun _ => []))
            h.record_start h.record_compressed) = .ok blk ∧
      readRecords h.records blk = .ok rs ∧
      h.record_start = 36 + (rs.map TreRecord.data_compressed).sum ∧
      (∀ i : Nat, ∀ r, rs[i]? = some r →
        r.data_offset = 36 + ((rs.take i).map TreRecord.data_compressed).sum) :=
  claim_C2 id (fun _ => []) some (fun _ => rfl) ⟨.none, .none⟩
    [.startOp [97] .none, .writeOp [1, 2, 3]] (by decide) (by decide) (by decide)


/-! Checksum bookkeeping along any call sequence. -/

theorem finishFile_checksums (deflate : Bytes → Bytes) (w : TreWriter) :
    (w.finishFile deflate).infoRecs.map TreRecord.checksum =
      w.infoRecs.map TreRecord.checksum ++ [w.record.checksum] := by
  simp [TreWriter.finishFile]

theorem finishPending_idem (deflate : Bytes → Bytes) (w : TreWriter) :
    ((w.finishPending deflate).finishPending deflate) = w.finishPending deflate :=
  finishPending_of_false deflate _ (finishPending_flag deflate w)

theorem checksums_run (deflate : Bytes → Bytes) (t : List WriterOp) :
    ∀ (w : TreWriter),
      ((w.runOps deflate t).finishPending deflate).infoRecs.map TreRecord.checksum =
        ((w.finishPending deflate).infoRecs.map TreRecord.checksum) ++
          (traceNames t).map crc32bzip2 := by
  induction t with
  | nil =>
    intro w
    simp [TreWriter.runOps, traceNames]
  | cons op rest ih =>
    intro w
    rw [runOps_cons, ih]
    cases op with
    | startOp n c =>
      have h1 : ((w.step deflate (.startOp n c)).finishPending deflate).infoRecs.map
          TreRecord.checksum =
          ((w.finishPending deflate).infoRecs.map TreRecord.checksum) ++ [crc32bzip2 n] := by
        rw [step_startOp, TreWriter.startFile,
          finishPending_of_true deflate _ (by rfl)]
        simp [TreWriter.finishFile]
      rw [h1, traceNames]
      simp [List.append_assoc]
    | writeOp buf =>
      have h1 : ((w.step deflate (.writeOp buf)).finishPending deflate).infoRecs.map
          TreRecord.checksum =
          (w.finishPending deflate).infoRecs.map TreRecord.checksum := by
        by_cases hw : w.writingToFile = true
        · have hstep : w.step deflate (.writeOp buf) =
              { w with currentIn := w.currentIn ++ buf } := by
            rw [TreWriter.step, TreWriter.write]
            simp [hw]
          rw [hstep, finishPending_of_true deflate _ hw,
            finishPending_of_true deflate { w with currentIn := w.currentIn ++ buf } hw]
          rw [finishFile_checksums, finishFile_checksums]
        · have hw2 : w.writingToFile = false := by
            revert hw
            cases w.writingToFile <;> simp
          have hstep : w.step deflate (.writeOp buf) = w := by
            rw [TreWriter.step, TreWriter.write]
            simp [hw2]
          rw [hstep]
      rw [h1, traceNames]
    | finishFileOp =>
      have h1 : w.step deflate .finishFileOp = w.finishPending deflate := rfl
      rw [h1, finishPending_idem, traceNames]

/-- Claim C3: every record the writer produces carries the CRC-32/BZIP2 of
the raw bytes of the name passed to start_file (no trailing NUL), for any
call sequence; and the checksum of "hello.txt" is 0x527E30AA. -/
theorem claim_C3 (deflate : Bytes → Bytes) (opts : TreWriterOptions) (t : List WriterOp) :
    ((((TreWriter.new opts).runOps deflate t).finishPending deflate).infoRecs.map
        TreRecord.checksum = (traceNames t).map crc32bzip2) ∧
      crc32bzip2 [0x68, 0x65, 0x6C, 0x6C, 0x6F, 0x2E, 0x74, 0x78, 0x74] = 0x527E30AA := by
  constructor
  · rw [checksums_run deflate t (TreWriter.new opts)]
    rw [finishPending_of_false deflate _ (by rfl)]
    rfl
  · set_option maxRecDepth 4000 in decide


/-! Hash trailer layout. -/

theorem slice_flatten_get (l : List Bytes) (C : Bytes) :
    ∀ (i : Nat) (d : Bytes), l[i]? = some d →
      slice (l.flatten ++ C) (sumLens (l.take i)) d.length = d := by
  induction l with
  | nil => intro i d h; simp at h
  | cons a l ih =>
    intro i d h
    cases i with
    | zero =>
      have ha : a = d := by simpa using h
      subst ha
      simp only [List.take_zero, sumLens, List.map_nil, List.sum_nil,
        List.flatten_cons, List.append_assoc, slice, List.drop_zero]
      exact List.take_left a _
    | succ i =>
      have h2 : l[i]? = some d := by simpa using h
      have hih := ih i d h2
      rw [List.take_succ_cons,
        show sumLens (a :: l.take i) = a.length + sumLens (l.take i) by simp [sumLens],
        List.flatten_cons, List.append_assoc, slice_eq, List.drop_append, ← slice_eq]
      exact hih

theorem sumLens_take_of_const (l : List Bytes) (hl : ∀ d ∈ l, d.length = 16) :
    ∀ i, i ≤ l.length → sumLens (l.take i) = 16 * i := by
  induction l with
  | nil =>
    intro i hi
    have : i = 0 := by simpa using hi
    subst this
    rfl
  | cons a l ih =>
    intro i hi
    cases i with
    | zero => rfl
    | succ i =>
      have ha : a.length = 16 := hl a (List.mem_cons_self a l)
      have hil : i ≤ l.length := by simpa using hi
      have := ih (fun d hd => hl d (List.mem_cons_of_mem a hd)) i hil
      rw [List.take_succ_cons,
        show sumLens (a :: l.take i) = a.length + sumLens (l.take i) by simp [sumLens],
        ha, this]
      omega

/-- Claim C4: the bytes a finished archive carries after the name block are
exactly the writer's per-entry MD5 digests, one 16-byte digest per entry in
entry order, the i-th being the digest of the i-th entry's finalized on-disk
bytes. -/
theorem claim_C4 (deflate md5 : Bytes → Bytes) (hm : ∀ x, (md5 x).length = 16)
    (opts : TreWriterOptions) (t : List WriterOp) (w : TreWriter)
    (hw : w = ((TreWriter.new opts).runOps deflate t).finishPending deflate) :
    (((TreWriter.new opts).runOps deflate t).finish deflate md5).drop
        (36 + sumLens w.disks +
          (encBlock deflate w.recordCompression
            ((w.infoRecs.map TreRecord.toBytes).flatten)).length +
          (encBlock deflate w.nameCompression w.nameIn).length) =
      (w.disks.map md5).flatten ∧
    ((w.disks.map md5).flatten).length = 16 * w.records ∧
    (∀ i : Nat, ∀ d, w.disks[i]? = some d →
      slice ((w.disks.map md5).flatten) (16 * i) 16 = md5 d) := by
  subst hw
  set w0 := (TreWriter.new opts).runOps deflate t with hw0
  set w := w0.finishPending deflate with hwdef
  have hwflag : w.writingToFile = false := finishPending_flag deflate w0
  have hinv : WriterInv w :=
    writerInv_finishPending deflate w0
      (writerInv_runOps deflate t (TreWriter.new opts) (writerInv_new opts))
  have hlens : ∀ d ∈ w.disks.map md5, d.length = 16 := by
    intro d hd
    obtain ⟨x, _, rfl⟩ := List.mem_map.mp hd
    exact hm x
  refine ⟨?_, ?_, ?_⟩
  · rw [finish_via_pending deflate md5 w0, ← hwdef,
      finish_of_closed deflate md5 w hwflag]
    rw [← List.append_assoc, ← List.append_assoc, ← List.append_assoc]
    apply List.drop_left'
    simp [header_toBytes_length, length_dataBlock, sumLens]
    omega
  · have hrec : w.records = w.infoRecs.length := by
      have hc := hinv.2.2.2
      rw [hwflag] at hc
      simpa using hc
    have hdlen : w.disks.length = w.infoRecs.length := hinv.1
    have h16 := sumLens_take_of_const (w.disks.map md5) hlens (w.disks.map md5).length
      (le_refl _)
    rw [List.take_length] at h16
    have hfl : ((w.disks.map md5).flatten).length = sumLens (w.disks.map md5) := by
      simp [sumLens]
    rw [hfl, h16, List.length_map, hdlen, hrec]
  · intro i d hd
    have hmapd : (w.disks.map md5)[i]? = some (md5 d) := by
      rw [List.getElem?_map, hd]
      rfl
    have hi : i < w.disks.length := (List.getElem?_eq_some.mp hd).1
    have hsl := slice_flatten_get (w.disks.map md5) [] i (md5 d) hmapd
    rw [List.append_nil] at hsl
    rw [sumLens_take_of_const (w.disks.map md5) hlens i (by simpa using Nat.le_of_lt hi),
      hm d] at hsl
    exact hsl


/-- Witness instantiating claim C4 on a concrete trace with a constant
16-byte digest function. -/
theorem claim_C4_witness :
    ((((TreWriter.new ⟨.none, .none⟩).runOps id
          [.startOp [97] .none, .writeOp [1, 2]]).finishPending id).disks.map
        (fun _ => List.replicate 16 0)).flatten.length =
      16 * (((TreWriter.new ⟨.none, .none⟩).runOps id
          [.startOp [97] .none, .writeOp [1, 2]]).finishPending id).records :=
  (claim_C4 id (fun _ => List.replicate 16 0) (fun _ => List.length_replicate 16 0)
    ⟨.none, .none⟩ [.startOp [97] .none, .writeOp [1, 2]] _ rfl).2.1


/-! Archive-open failure behaviour. -/

theorem errBind {ε α β : Type} (e : ε) (f : α → Except ε β) :
    (Except.error e : Except ε α) >>= f = Except.error e := rfl

theorem readHeader_err_of_badMagic (bs : Bytes) (h : bs.take 8 ≠ treMagic) :
    ∃ e, readHeader bs = .error e := by
  rw [readHeader]
  by_cases hl : bs.length < 8
  · exact ⟨.eof, if_pos hl⟩
  · rw [if_neg hl, if_pos h]
    exact ⟨.badMagic, rfl⟩

theorem getMetadata_err_of_header (inflate : Bytes → Option Bytes) (bs : Bytes)
    (e : ReadErr) (h : readHeader bs = .error e) :
    getMetadata inflate bs = .error e := by
  rw [getMetadata, h, errBind]

/-- Claim C6: any input whose first eight bytes are not exactly
"EERT5000" (including inputs shorter than eight bytes) makes
TreArchive::new fail with InvalidArchive, producing no archive. -/
theorem claim_C6 (inflate : Bytes → Option Bytes) (bs : Bytes)
    (h : bs.take 8 ≠ treMagic) :
    TreArchive.new inflate bs = .error .invalidArchive := by
  obtain ⟨e, he⟩ := readHeader_err_of_badMagic bs h
  rw [TreArchive.new, getMetadata_err_of_header inflate bs e he]

/-- Witness instantiating claim C6 on a wrong first byte. -/
theorem claim_C6_witness :
    TreArchive.new (fun _ => Option.none)
        [0x40, 0x45, 0x52, 0x54, 0x35, 0x30, 0x30, 0x30] = .error .invalidArchive :=
  claim_C6 (fun _ => Option.none) [0x40, 0x45, 0x52, 0x54, 0x35, 0x30, 0x30, 0x30]
    (by decide)

/-- Claim C9 counterexample: a source whose reads fail with the
UnexpectedEof I/O error (the empty input) makes get_metadata fail with that
I/O error, yet TreArchive::new hands the caller InvalidArchive, a different
error kind, not the I/O error. -/
theorem claim_C9_cex :
    getMetadata (fun _ => Option.none) [] = .error .eof ∧
    ReadErr.eof.isIo = true ∧
    TreArchive.new (fun _ => Option.none) [] = .error .invalidArchive ∧
    TreError.invalidArchive ≠ TreError.ioError .eof := by
  refine ⟨rfl, rfl, rfl, by decide⟩

/-- Claim C9 as amended: every failure inside TreArchive::new, I/O failures
of the byte source included, is replaced by InvalidArchive before reaching
the caller. -/
theorem claim_C9_amended (inflate : Bytes → Option Bytes) (bs : Bytes) (e : ReadErr)
    (h : getMetadata inflate bs = .error e) :
    TreArchive.new inflate bs = .error .invalidArchive := by
  rw [TreArchive.new, h]

/-- Witness instantiating the amended claim C9 on the empty input. -/
theorem claim_C9_amended_witness :
    TreArchive.new (fun _ => Option.none) [] = .error .invalidArchive :=
  claim_C9_amended (fun _ => Option.none) [] .eof rfl

/-- Claim C10: a byte-stream write with no entry open fails with the
"No file has been started" I/O error, mutates nothing, and any subsequent
call sequence behaves exactly as if the failed write had never happened. -/
theorem claim_C10 (deflate : Bytes → Bytes) (w : TreWriter) (buf : Bytes)
    (hw : w.writingToFile = false) :
    w.write buf = .error "No file has been started" ∧
    w.step deflate (.writeOp buf) = w ∧
    (∀ t : List WriterOp, w.runOps deflate (.writeOp buf :: t) = w.runOps deflate t) := by
  have hwr : w.write buf = .error "No file has been started" := by
    rw [TreWriter.write, if_pos hw]
  have hstep : w.step deflate (.writeOp buf) = w := by
    rw [TreWriter.step, hwr]
  exact ⟨hwr, hstep, fun t => by rw [runOps_cons, hstep]⟩

/-- Witness instantiating claim C10 on a fresh writer. -/
theorem claim_C10_witness :
    (TreWriter.new ⟨.none, .none⟩).write [1] = .error "No file has been started" ∧
    (TreWriter.new ⟨.none, .none⟩).step id (.writeOp [1]) = TreWriter.new ⟨.none, .none⟩ ∧
    (∀ t : List WriterOp,
      (TreWriter.new ⟨.none, .none⟩).runOps id (.writeOp [1] :: t) =
        (TreWriter.new ⟨.none, .none⟩).runOps id t) :=
  claim_C10 id (TreWriter.new ⟨.none, .none⟩) [1] rfl


/-! Rejection of invalid compression tags. -/

theorem readU32_rest (l : Bytes) (v : Nat) (rest : Bytes)
    (h : readU32 l = .ok (v, rest)) : rest = l.drop 4 := by
  cases l with
  | nil => simp [readU32] at h
  | cons b0 l0 =>
    cases l0 with
    | nil => simp [readU32] at h
    | cons b1 l1 =>
      cases l1 with
      | nil => simp [readU32] at h
      | cons b2 l2 =>
        cases l2 with
        | nil => simp [readU32] at h
        | cons b3 r =>
          simp only [readU32, Except.ok.injEq, Prod.mk.injEq] at h
          simp [← h.2]

theorem ofU32_none (m : Nat) (h0 : m ≠ 0) (h2 : m ≠ 2) :
    CompressionMethod.ofU32 m = Option.none := by
  rw [CompressionMethod.ofU32, if_neg h0, if_neg h2]

theorem readCompression_err (l : Bytes) (m : Nat) (rest : Bytes)
    (hm : readU32 l = .ok (m, rest)) (h0 : m ≠ 0) (h2 : m ≠ 2) :
    readCompression l = .error .badVariant := by
  rw [readCompression, hm]
  simp only [okBind, ofU32_none m h0 h2]

theorem readCompression_rest (l : Bytes) (c : CompressionMethod) (s : Bytes)
    (h : readCompression l = .ok (c, s)) : s = l.drop 4 := by
  rw [readCompression] at h
  cases hu : readU32 l with
  | error e => rw [hu, errBind] at h; exact absurd h (by simp)
  | ok p =>
    obtain ⟨v, s1⟩ := p
    rw [hu] at h
    simp only [okBind] at h
    cases ho : CompressionMethod.ofU32 v with
    | none =>
      simp only [ho] at h
      exact absurd h (by simp)
    | some c2 =>
      simp only [ho, pureExcept] at h
      have h2 := (Except.ok.injEq _ _ ▸ h)
      have hs : s1 = s := congrArg Prod.snd (Except.ok.inj h)
      rw [← hs]
      exact readU32_rest l v s1 hu

theorem readHeader_err_of_badComp16 (bs : Bytes) (m : Nat) (rest : Bytes)
    (hm : readU32 (bs.drop 16) = .ok (m, rest)) (h0 : m ≠ 0) (h2 : m ≠ 2) :
    ∃ e, readHeader bs = .error e := by
  rw [readHeader]
  by_cases hl : bs.length < 8
  · exact ⟨.eof, if_pos hl⟩
  rw [if_neg hl]
  by_cases hmg : bs.take 8 ≠ treMagic
  · rw [if_pos hmg]
    exact ⟨.badMagic, rfl⟩
  rw [if_neg hmg]
  cases h8 : readU32 (bs.drop 8) with
  | error e => exact ⟨e, errBind e _⟩
  | ok p =>
    obtain ⟨records, s1⟩ := p
    have hs1 : s1 = bs.drop 12 := by
      rw [readU32_rest _ _ _ h8, List.drop_drop]
    simp only [okBind]
    cases h12 : readU32 s1 with
    | error e => exact ⟨e, errBind e _⟩
    | ok p2 =>
      obtain ⟨rstart, s2⟩ := p2
      have hs2 : s2 = bs.drop 16 := by
        rw [readU32_rest _ _ _ h12, hs1, List.drop_drop]
      simp only [okBind]
      rw [hs2, readCompression_err _ m rest hm h0 h2]
      exact ⟨.badVariant, errBind _ _⟩

theorem readHeader_err_of_badComp24 (bs : Bytes) (m : Nat) (rest : Bytes)
    (hm : readU32 (bs.drop 24) = .ok (m, rest)) (h0 : m ≠ 0) (h2 : m ≠ 2) :
    ∃ e, readHeader bs = .error e := by
  rw [readHeader]
  by_cases hl : bs.length < 8
  · exact ⟨.eof, if_pos hl⟩
  rw [if_neg hl]
  by_cases hmg : bs.take 8 ≠ treMagic
  · rw [if_pos hmg]
    exact ⟨.badMagic, rfl⟩
  rw [if_neg hmg]
  cases h8 : readU32 (bs.drop 8) with
  | error e => exact ⟨e, errBind e _⟩
  | ok p =>
    obtain ⟨records, s1⟩ := p
    have hs1 : s1 = bs.drop 12 := by
      rw [readU32_rest _ _ _ h8, List.drop_drop]
    simp only [okBind]
    cases h12 : readU32 s1 with
    | error e => exact ⟨e, errBind e _⟩
    | ok p2 =>
      obtain ⟨rstart, s2⟩ := p2
      have hs2 : s2 = bs.drop 16 := by
        rw [readU32_rest _ _ _ h12, hs1, List.drop_drop]
      simp only [okBind]
      cases h16 : readCompression s2 with
      | error e => exact ⟨e, errBind e _⟩
      | ok p3 =>
        obtain ⟨rc, s3⟩ := p3
        have hs3 : s3 = bs.drop 20 := by
          rw [readCompression_rest _ _ _ h16, hs2, List.drop_drop]
        simp only [okBind]
        cases h20 : readU32 s3 with
        | error e => exact ⟨e, errBind e _⟩
        | ok p4 =>
          obtain ⟨rcomp, s4⟩ := p4
          have hs4 : s4 = bs.drop 24 := by
            rw [readU32_rest _ _ _ h20, hs3, List.drop_drop]
          simp only [okBind]
          rw [hs4, readCompression_err _ m rest hm h0 h2]
          exact ⟨.badVariant, errBind _ _⟩

theorem readRecord_rest (l : Bytes) (r : TreRecord) (s : Bytes)
    (h : readRecord l = .ok (r, s)) : s = l.drop 24 := by
  rw [readRecord] at h
  cases h0 : readU32 l with
  | error e => rw [h0, errBind] at h; exact absurd h (by simp)
  | ok p0 =>
    obtain ⟨v0, s0⟩ := p0
    rw [h0] at h
    simp only [okBind] at h
    cases h1 : readU32 s0 with
    | error e => rw [h1, errBind] at h; exact absurd h (by simp)
    | ok p1 =>
      obtain ⟨v1, s1⟩ := p1
      rw [h1] at h
      simp only [okBind] at h
      cases h2 : readU32 s1 with
      | error e => rw [h2, errBind] at h; exact absurd h (by simp)
      | ok p2 =>
        obtain ⟨v2, s2⟩ := p2
        rw [h2] at h
        simp only [okBind] at h
        cases h3 : readCompression s2 with
        | error e => rw [h3, errBind] at h; exact absurd h (by simp)
        | ok p3 =>
          obtain ⟨v3, s3⟩ := p3
          rw [h3] at h
          simp only [okBind] at h
          cases h4 : readU32 s3 with
          | error e => rw [h4, errBind] at h; exact absurd h (by simp)
          | ok p4 =>
            obtain ⟨v4, s4⟩ := p4
            rw [h4] at h
            simp only [okBind] at h
            cases h5 : readU32 s4 with
            | error e => rw [h5, errBind] at h; exact absurd h (by simp)
            | ok p5 =>
              obtain ⟨v5, s5⟩ := p5
              rw [h5] at h
              simp only [okBind, pureExcept] at h
              have hs : s5 = s := congrArg Prod.snd (Except.ok.inj h)
              rw [← hs, readU32_rest _ _ _ h5, readU32_rest _ _ _ h4,
                readCompression_rest _ _ _ h3, readU32_rest _ _ _ h2,
                readU32_rest _ _ _ h1, readU32_rest _ _ _ h0,
                List.drop_drop, List.drop_drop, List.drop_drop, List.drop_drop,
                List.drop_drop]

theorem readRecord_err_of_badComp (l : Bytes) (m : Nat) (rest : Bytes)
    (hm : readU32 (l.drop 12) = .ok (m, rest)) (h0 : m ≠ 0) (h2 : m ≠ 2) :
    ∃ e, readRecord l = .error e := by
  rw [readRecord]
  cases hr0 : readU32 l with
  | error e => exact ⟨e, errBind e _⟩
  | ok p0 =>
    obtain ⟨v0, s0⟩ := p0
    have hs0 : s0 = l.drop 4 := readU32_rest _ _ _ hr0
    simp only [okBind]
    cases hr1 : readU32 s0 with
    | error e => exact ⟨e, errBind e _⟩
    | ok p1 =>
      obtain ⟨v1, s1⟩ := p1
      have hs1 : s1 = l.drop 8 := by
        rw [readU32_rest _ _ _ hr1, hs0, List.drop_drop]
      simp only [okBind]
      cases hr2 : readU32 s1 with
      | error e => exact ⟨e, errBind e _⟩
      | ok p2 =>
        obtain ⟨v2, s2⟩ := p2
        have hs2 : s2 = l.drop 12 := by
          rw [readU32_rest _ _ _ hr2, hs1, List.drop_drop]
        simp only [okBind]
        rw [hs2, readCompression_err _ m rest hm h0 h2]
        exact ⟨.badVariant, errBind _ _⟩

theorem readRecords_err_of_badComp (i : Nat) :
    ∀ (n : Nat) (blk : Bytes) (m : Nat) (rest : Bytes), i < n →
      readU32 ((blk.drop (24 * i)).drop 12) = .ok (m, rest) → m ≠ 0 → m ≠ 2 →
      ∃ e, readRecords n blk = .error e := by
  induction i with
  | zero =>
    intro n blk m rest hin hm h0 h2
    obtain ⟨n0, rfl⟩ : ∃ n0, n = n0 + 1 := ⟨n - 1, by omega⟩
    rw [Nat.mul_zero, List.drop_zero] at hm
    obtain ⟨e, he⟩ := readRecord_err_of_badComp blk m rest hm h0 h2
    refine ⟨e, ?_⟩
    rw [readRecords, he]
    exact errBind e _
  | succ i ih =>
    intro n blk m rest hin hm h0 h2
    obtain ⟨n0, rfl⟩ : ∃ n0, n = n0 + 1 := ⟨n - 1, by omega⟩
    rw [readRecords]
    cases hr : readRecord blk with
    | error e => exact ⟨e, errBind e _⟩
    | ok p =>
      obtain ⟨r, s⟩ := p
      have hs : s = blk.drop 24 := readRecord_rest _ _ _ hr
      have hm2 : readU32 (((blk.drop 24).drop (24 * i)).drop 12) = .ok (m, rest) := by
        have e2 : ((blk.drop 24).drop (24 * i)).drop 12 = (blk.drop (24 * (i + 1))).drop 12 := by
          rw [List.drop_drop, List.drop_drop, List.drop_drop]
          congr 1
          omega
        rw [e2]
        exact hm
      obtain ⟨e, he⟩ := ih n0 (blk.drop 24) m rest (by omega) hm2 h0 h2
      refine ⟨e, ?_⟩
      simp only [okBind]
      rw [hs, he]
      exact errBind e _

/-- Claim C5: every 32-bit value other than 0 (None) and 2 (Zlib) in a
compression-method field has no variant, and an archive whose header
record_compression, header name_compression, or any record's
data_compression field holds such a value fails to open, the parse error
surfacing to the caller as InvalidArchive. -/
theorem claim_C5 (inflate : Bytes → Option Bytes) :
    (∀ m : Nat, m ≠ 0 → m ≠ 2 → CompressionMethod.ofU32 m = Option.none) ∧
    (∀ (bs : Bytes) (m : Nat) (rest : Bytes),
      readU32 (bs.drop 16) = .ok (m, rest) → m ≠ 0 → m ≠ 2 →
      TreArchive.new inflate bs = .error .invalidArchive) ∧
    (∀ (bs : Bytes) (m : Nat) (rest : Bytes),
      readU32 (bs.drop 24) = .ok (m, rest) → m ≠ 0 → m ≠ 2 →
      TreArchive.new inflate bs = .error .invalidArchive) ∧
    (∀ (bs : Bytes) (h : TreHeader) (blk : Bytes), readHeader bs = .ok h →
      decodeBlock inflate h.record_compression
          (slice bs h.record_start h.record_compressed) = .ok blk →
      ∀ (i : Nat) (m : Nat) (rest : Bytes), i < h.records →
        readU32 ((blk.drop (24 * i)).drop 12) = .ok (m, rest) → m ≠ 0 → m ≠ 2 →
        TreArchive.new inflate bs = .error .invalidArchive) := by
  refine ⟨ofU32_none, ?_, ?_, ?_⟩
  · intro bs m rest hm h0 h2
    obtain ⟨e, he⟩ := readHeader_err_of_badComp16 bs m rest hm h0 h2
    rw [TreArchive.new, getMetadata_err_of_header inflate bs e he]
  · intro bs m rest hm h0 h2
    obtain ⟨e, he⟩ := readHeader_err_of_badComp24 bs m rest hm h0 h2
    rw [TreArchive.new, getMetadata_err_of_header inflate bs e he]
  · intro bs h blk hh hdec i m rest hin hm h0 h2
    obtain ⟨e, he⟩ := readRecords_err_of_badComp i h.records blk m rest hin hm h0 h2
    have hmeta : getMetadata inflate bs = .error e := by
      rw [getMetadata, hh, okBind, hdec, okBind, he, errBind]
    rw [TreArchive.new, hmeta]

/-- Witness instantiating claim C5: a header whose record_compression word
holds 1 is rejected as InvalidArchive. -/
theorem claim_C5_witness :
    TreArchive.new (fun _ => Option.none)
        (treMagic ++ u32le 0 ++ u32le 36 ++ u32le 1 ++ u32le 0 ++ u32le 0 ++
          u32le 0 ++ u32le 0) = .error .invalidArchive :=
  (claim_C5 (fun _ => Option.none)).2.1
    (treMagic ++ u32le 0 ++ u32le 36 ++ u32le 1 ++ u32le 0 ++ u32le 0 ++
      u32le 0 ++ u32le 0) 1 (u32le 0 ++ u32le 0 ++ u32le 0 ++ u32le 0)
    (by rfl) (by decide) (by decide)


/-! Duplicate-name behaviour of the ordered map. -/

theorem find?_map_repl_eq {α β : Type} [DecidableEq α] (m : List (α × β)) (k' : α) (v : β)
    (hc : (m.any fun p => decide (p.1 = k')) = true) :
    ((m.map fun p => if p.1 = k' then (k', v) else p).find? fun p => decide (p.1 = k')) =
      some (k', v) := by
  induction m with
  | nil => simp at hc
  | cons p m ih =>
    by_cases hp : p.1 = k'
    · simp [hp]
    · have hc2 : (m.any fun p => decide (p.1 = k')) = true := by
        simp only [List.any_cons, Bool.or_eq_true, decide_eq_true_eq] at hc
        rcases hc with h1 | h2
        · exact absurd h1 hp
        · simpa using h2
      simp only [List.map_cons, List.find?_cons, if_neg hp]
      rw [show (decide (p.1 = k')) = false by simp [hp]]
      exact ih hc2

theorem find?_map_repl_ne {α β : Type} [DecidableEq α] (m : List (α × β)) (k k' : α)
    (v : β) (hk : k ≠ k') :
    ((m.map fun p => if p.1 = k' then (k', v) else p).find? fun p => decide (p.1 = k)) =
      m.find? fun p => decide (p.1 = k) := by
  induction m with
  | nil => rfl
  | cons p m ih =>
    by_cases hp : p.1 = k'
    · simp only [List.map_cons, List.find?_cons, if_pos hp]
      rw [show (decide (k' = k)) = false by simp [Ne.symm hk],
        show (decide (p.1 = k)) = false by simp [hp, Ne.symm hk]]
      exact ih
    · simp only [List.map_cons, List.find?_cons, if_neg hp]
      by_cases hpk : p.1 = k
      · rw [show (decide (p.1 = k)) = true by simp [hpk]]
      · rw [show (decide (p.1 = k)) = false by simp [hpk]]
        exact ih

theorem imFind_imInsert {α β : Type} [DecidableEq α] (m : List (α × β)) (k k' : α) (v : β) :
    imFind (imInsert m k' v) k = if k = k' then some v else imFind m k := by
  rw [imInsert]
  by_cases hc : imContains m k'
  · rw [if_pos hc]
    by_cases hk : k = k'
    · subst hk
      rw [if_pos rfl, imFind, find?_map_repl_eq m k v (by simpa [imContains] using hc)]
      rfl
    · rw [if_neg hk, imFind, find?_map_repl_ne m k k' v hk, imFind]
  · rw [if_neg hc, imFind, List.find?_append]
    by_cases hk : k = k'
    · subst hk
      have hnone : (m.find? fun p => decide (p.1 = k)) = none := by
        rw [List.find?_eq_none]
        intro p hp
        simp only [imContains] at hc
        intro hpk
        exact hc (List.any_eq_true.mpr ⟨p, hp, by simpa using hpk⟩)
      rw [hnone, if_pos rfl]
      simp
    · rw [if_neg hk, imFind]
      have hone : ([(k', v)].find? fun p => decide (p.1 = k)) = none := by
        simp [List.find?, Ne.symm hk]
      rw [hone]
      cases m.find? fun p => decide (p.1 = k) <;> rfl

theorem imFind_buildFiles (ps : List (TreRecord × Bytes)) (k : Bytes) :
    imFind (buildFiles ps) k = lastMeta ps k := by
  induction ps using List.reverseRecOn with
  | nil => rfl
  | append_singleton ps p ih =>
    rw [buildFiles, List.foldl_concat]
    rw [show ps.foldl (fun m rn => imInsert m rn.2 (mkFileData rn.1 rn.2)) [] = buildFiles ps
      from rfl]
    rw [imFind_imInsert, lastMeta, List.reverse_append]
    simp only [List.reverse_cons, List.reverse_nil, List.nil_append, List.cons_append,
      List.find?_cons]
    by_cases hk : k = p.2
    · rw [if_pos hk, show (decide (p.2 = k)) = true by simp [hk]]
      rfl
    · rw [if_neg hk, show (decide (p.2 = k)) = false by simp [Ne.symm hk], ih, lastMeta]

theorem getElem?_findIdx? {α : Type} (p : α → Bool) (m : List α) :
    (m.findIdx? p).bind (fun i => m[i]?) = m.find? p := by
  induction m with
  | nil => rfl
  | cons a m ih =>
    rw [List.findIdx?_cons]
    by_cases hp : p a
    · simp [hp]
    · rw [if_neg (by simp [hp]), List.findIdx?_succ, List.find?_cons,
        show p a = false by simp [hp]]
      rw [← ih]
      cases h : m.findIdx? p with
      | none => rfl
      | some i => simp

theorem byNameData_eq_imFind (s : Shared) (k : Bytes) :
    byNameData s k =
      match imFind s.files k with
      | some d => .ok d
      | Option.none => .error (.fileNotFoundName k) := by
  rw [byNameData, imIndexOf]
  have h := getElem?_findIdx? (fun p => decide (p.1 = k)) s.files
  cases hidx : s.files.findIdx? (fun p => decide (p.1 = k)) with
  | none =>
    rw [hidx] at h
    simp only [Option.bind] at h
    rw [imFind, ← h]
    rfl
  | some i =>
    rw [hidx] at h
    simp only [Option.bind] at h
    show byIndexData s i = _
    rw [byIndexData.eq_def]
    cases hg : s.files[i]? with
    | none =>
      rw [hg] at h
      have hno : ∀ x ∈ s.files, ¬ (fun p => decide (p.1 = k)) x = true :=
        fun x hx => by
          have := List.find?_eq_none.mp h.symm x hx
          simpa using this
      have : s.files.findIdx? (fun p => decide (p.1 = k)) = none := by
        rw [List.findIdx?_eq_none_iff]
        intro x hx
        have := hno x hx
        simpa using this
      rw [this] at hidx
      exact Option.noConfusion hidx
    | some pr =>
      rw [hg] at h
      rw [imFind, ← h]
      rfl


theorem getMetadata_ok_elim (inflate : Bytes → Option Bytes) (bs : Bytes) (s : Shared)
    (h : getMetadata inflate bs = .ok s) :
    ∃ (recs : List TreRecord) (names : List Bytes),
      s.files = buildFiles (recs.zip names) := by
  rw [getMetadata] at h
  cases hh : readHeader bs with
  | error e => rw [hh, errBind] at h; exact absurd h (by simp)
  | ok hd =>
    rw [hh, okBind] at h
    cases hd1 : decodeBlock inflate hd.record_compression
        (slice bs hd.record_start hd.record_compressed) with
    | error e => rw [hd1, errBind] at h; exact absurd h (by simp)
    | ok recBlock =>
      rw [hd1, okBind] at h
      cases hr : readRecords hd.records recBlock with
      | error e => rw [hr, errBind] at h; exact absurd h (by simp)
      | ok recs =>
        rw [hr, okBind] at h
        cases hd2 : decodeBlock inflate hd.name_compression
            (slice bs (hd.record_start + hd.record_compressed) hd.name_compressed) with
        | error e => rw [hd2, errBind] at h; exact absurd h (by simp)
        | ok nameBlock =>
          rw [hd2, okBind] at h
          cases hn : readNames hd.records nameBlock with
          | error e => rw [hn, errBind] at h; exact absurd h (by simp)
          | ok names =>
            rw [hn, okBind, pureExcept] at h
            refine ⟨recs, names, ?_⟩
            rw [← Except.ok.inj h]

theorem new_ok_elim (inflate : Bytes → Option Bytes) (bs : Bytes) (s : Shared)
    (h : TreArchive.new inflate bs = .ok s) : getMetadata inflate bs = .ok s := by
  rw [TreArchive.new] at h
  cases hm : getMetadata inflate bs with
  | error e => rw [hm] at h; exact absurd h (by simp)
  | ok s2 => rw [hm] at h; rw [Except.ok.inj h]

/-- Claim C7 counterexample: an archive holding the name "a" at two record
positions, record 0 with checksum 1 and record 1 with checksum 2; the
name lookup after open returns the metadata of the SECOND (last) occurrence,
checksum 2, not the first occurrence's checksum 1. -/
theorem claim_C7_counterexample :
    (∃ s, TreArchive.new (fun _ => Option.none) c7bytes = .ok s ∧
      byNameData s [97] = .ok (mkFileData
        { checksum := 2, data_uncompressed := 0, data_offset := 36,
          data_compression := .none, data_compressed := 0, name_offset := 2 } [97])) ∧
    (readRecords 2 (slice c7bytes 36 48)).toOption.bind (fun rs => rs[0]?) =
      some { checksum := 1, data_uncompressed := 0, data_offset := 36,
             data_compression := .none, data_compressed := 0, name_offset := 0 } ∧
    (2 : Nat) ≠ 1 := by
  refine ⟨⟨_, rfl, rfl⟩, rfl, by decide⟩

/-- Claim C7 as amended: for every archive that opens, the files map is the
fold of IndexMap inserts over the zipped records and names, and a name
lookup returns the metadata of the LAST occurrence of that name in record
order (kept at the first occurrence's position in insertion order). -/
theorem claim_C7_amended (inflate : Bytes → Option Bytes) (bs : Bytes) (s : Shared)
    (hopen : TreArchive.new inflate bs = .ok s) :
    ∃ ps : List (TreRecord × Bytes), s.files = buildFiles ps ∧
      ∀ k : Bytes, byNameData s k =
        match lastMeta ps k with
        | some d => .ok d
        | Option.none => .error (.fileNotFoundName k) := by
  obtain ⟨recs, names, hfiles⟩ :=
    getMetadata_ok_elim inflate bs s (new_ok_elim inflate bs s hopen)
  refine ⟨recs.zip names, hfiles, fun k => ?_⟩
  rw [byNameData_eq_imFind, hfiles, imFind_buildFiles]

/-- Witness instantiating the amended claim C7 on the duplicate-name
archive. -/
theorem claim_C7_amended_witness :
    ∃ s, TreArchive.new (fun _ => Option.none) c7bytes = .ok s ∧
      ∃ ps : List (TreRecord × Bytes), s.files = buildFiles ps ∧
        ∀ k : Bytes, byNameData s k =
          match lastMeta ps k with
          | some d => .ok d
          | Option.none => .error (.fileNotFoundName k) :=
  ⟨_, rfl, claim_C7_amended (fun _ => Option.none) c7bytes _ rfl⟩


/-! Generic facts about the insert-based maps, shared with the string-table
model. -/

theorem imInsert_fresh {α β : Type} [DecidableEq α] (m : List (α × β)) (k : α) (v : β)
    (hc : imContains m k = false) : imInsert m k v = m ++ [(k, v)] := by
  rw [imInsert, hc]
  rfl

theorem imContains_append {α β : Type} [DecidableEq α] (m1 m2 : List (α × β)) (k : α) :
    imContains (m1 ++ m2) k = (imContains m1 k || imContains m2 k) := by
  simp [imContains, List.any_append]

theorem foldl_imInsert_of_fresh {α β : Type} [DecidableEq α] :
    ∀ (l : List (α × β)) (acc : List (α × β)),
      (∀ p ∈ l, imContains acc p.1 = false) → (l.map Prod.fst).Nodup →
      l.foldl (fun m p => imInsert m p.1 p.2) acc = acc ++ l := by
  intro l
  induction l with
  | nil => intro acc _ _; simp
  | cons p l ih =>
    intro acc hfresh hnod
    rw [List.foldl_cons, imInsert_fresh acc p.1 p.2 (hfresh p (List.mem_cons_self p l))]
    have hnod2 : (l.map Prod.fst).Nodup := by
      rw [List.map_cons] at hnod
      exact hnod.of_cons
    have hfresh2 : ∀ q ∈ l, imContains (acc ++ [(p.1, p.2)]) q.1 = false := by
      intro q hq
      rw [imContains_append]
      have h1 : imContains acc q.1 = false := hfresh q (List.mem_cons_of_mem p hq)
      have h2 : imContains [(p.1, p.2)] q.1 = false := by
        have hne : p.1 ≠ q.1 := by
          rw [List.map_cons] at hnod
          intro he
          exact (List.nodup_cons.mp hnod).1 (he ▸ List.mem_map_of_mem Prod.fst hq)
        simp [imContains, hne]
      rw [h1, h2]
      rfl
    rw [ih (acc ++ [(p.1, p.2)]) hfresh2 hnod2, List.append_assoc]
    rfl

theorem imFind_eq_some_iff_of_nodup {α β : Type} [DecidableEq α] :
    ∀ (l : List (α × β)), ((l.map Prod.fst).Nodup) → ∀ (k : α) (v : β),
      (imFind l k = some v ↔ (k, v) ∈ l) := by
  intro l
  induction l with
  | nil => intro _ k v; simp [imFind]
  | cons p l ih =>
    intro hnod k v
    rw [List.map_cons, List.nodup_cons] at hnod
    by_cases hp : p.1 = k
    · rw [imFind, List.find?_cons, show (decide (p.1 = k)) = true by simp [hp]]
      constructor
      · intro h
        have hv : p.2 = v := by simpa using h
        have hkv : (k, v) = p := by
          rw [← hp, ← hv]
        rw [hkv]
        exact List.mem_cons_self p l
      · intro h
        rcases List.mem_cons.mp h with h1 | h1
        · rw [← h1]
          rfl
        · exfalso
          apply hnod.1
          rw [hp]
          have hm : (k, v).1 ∈ l.map Prod.fst := List.mem_map_of_mem Prod.fst h1
          simpa using hm
    · rw [imFind, List.find?_cons, show (decide (p.1 = k)) = false by simp [hp], ← imFind]
      rw [ih hnod.2 k v]
      constructor
      · exact fun h => List.mem_cons_of_mem p h
      · intro h
        rcases List.mem_cons.mp h with h1 | h1
        · exact absurd (congrArg Prod.fst h1.symm) hp
        · exact h1

end SwgTre

namespace SwgStf

open SwgTre (Bytes readU8 readU32 imInsert imFind imContains ReadErr errBind okBind
  pureExcept foldl_imInsert_of_fresh imFind_eq_some_iff_of_nodup imInsert_fresh)


/-! The id-join of the string table. -/

theorem hmOfList_of_nodup {β : Type} (l : List (Nat × β))
    (hn : (l.map Prod.fst).Nodup) : hmOfList l = l := by
  rw [hmOfList]
  have h := foldl_imInsert_of_fresh l [] (fun p _ => rfl) hn
  simpa using h

theorem joinList_map_fst (vals keys : List (Nat × List Nat)) :
    ((keys.filterMap fun p => (imFind (hmOfList vals) p.1).map fun v => (p.2, v)).map
        Prod.fst) =
      (keys.filter fun p => (imFind (hmOfList vals) p.1).isSome).map Prod.snd := by
  induction keys with
  | nil => rfl
  | cons p keys ih =>
    cases h : imFind (hmOfList vals) p.1 with
    | none => simp [List.filterMap_cons, List.filter_cons, h, ih]
    | some v => simp [List.filterMap_cons, List.filter_cons, h, ih]

theorem joinList_fst_nodup (vals keys : List (Nat × List Nat))
    (hks : (keys.map Prod.snd).Nodup) :
    ((keys.filterMap fun p => (imFind (hmOfList vals) p.1).map fun v => (p.2, v)).map
        Prod.fst).Nodup := by
  rw [joinList_map_fst]
  exact hks.sublist ((List.filter_sublist keys).map Prod.snd)

theorem stfEntries_eq_joinList (vals keys : List (Nat × List Nat))
    (hks : (keys.map Prod.snd).Nodup) (hkn : (keys.map Prod.fst).Nodup) :
    stfEntries vals keys =
      keys.filterMap fun p => (imFind (hmOfList vals) p.1).map fun v => (p.2, v) := by
  rw [stfEntries, hmOfList_of_nodup keys hkn]
  have h := foldl_imInsert_of_fresh
    (keys.filterMap fun p => (imFind (hmOfList vals) p.1).map fun v => (p.2, v)) []
    (fun p _ => rfl) (joinList_fst_nodup vals keys hks)
  simpa using h

/-- Claim C8: for a well-formed string table (distinct ids among value
records, distinct ids and distinct names among key records), the parsed
entries form exactly the map joining keys to values on equal id: a key's
name maps to v iff some id carries both that name and v; a key whose id has
no value record is absent; and every successful parse produces exactly this
join of its parsed value and key records. -/
theorem claim_C8 :
    (∀ (vals keys : List (Nat × List Nat)),
      (vals.map Prod.fst).Nodup → (keys.map Prod.fst).Nodup →
      (keys.map Prod.snd).Nodup →
      (∀ (k v : List Nat),
        imFind (stfEntries vals keys) k = some v ↔
          ∃ id : Nat, (id, k) ∈ keys ∧ (id, v) ∈ vals) ∧
      (∀ (id : Nat) (k : List Nat), (id, k) ∈ keys → (∀ v, (id, v) ∉ vals) →
        imFind (stfEntries vals keys) k = Option.none)) ∧
    (∀ (bs : Bytes) (st : StringTableReader), StringTableReader.new bs = .ok st →
      ∃ vals keys, st.entries = stfEntries vals keys) := by
  constructor
  · intro vals keys hvn hkn hks
    have hiff : ∀ (k v : List Nat),
        imFind (stfEntries vals keys) k = some v ↔
          ∃ id : Nat, (id, k) ∈ keys ∧ (id, v) ∈ vals := by
      intro k v
      rw [stfEntries_eq_joinList vals keys hks hkn]
      rw [imFind_eq_some_iff_of_nodup _ (joinList_fst_nodup vals keys hks) k v]
      rw [List.mem_filterMap]
      constructor
      · rintro ⟨p, hp, hfp⟩
        obtain ⟨v0, hv0, hpair⟩ := Option.map_eq_some'.mp hfp
        have hsnd : p.2 = k := congrArg Prod.fst hpair
        have hval : v0 = v := congrArg Prod.snd hpair
        rw [hmOfList_of_nodup vals hvn] at hv0
        have hmem : (p.1, v) ∈ vals := by
          rw [← hval]
          exact (imFind_eq_some_iff_of_nodup vals hvn p.1 v0).mp hv0
        exact ⟨p.1, by rw [← hsnd]; exact hp, hmem⟩
      · rintro ⟨id, hk, hv⟩
        refine ⟨(id, k), hk, ?_⟩
        rw [hmOfList_of_nodup vals hvn]
        have hfind : imFind vals id = some v :=
          (imFind_eq_some_iff_of_nodup vals hvn id v).mpr hv
        simp [hfind]
    refine ⟨hiff, ?_⟩
    intro id k hk hnov
    cases hfind : imFind (stfEntries vals keys) k with
    | none => rfl
    | some v =>
      exfalso
      obtain ⟨id2, hk2, hv2⟩ := (hiff k v).mp hfind
      have hid : (id, k) = (id2, k) :=
        List.inj_on_of_nodup_map hks hk hk2 rfl
      have : id = id2 := congrArg Prod.fst hid
      exact hnov v (this ▸ hv2)
  · intro bs st h
    rw [StringTableReader.new] at h
    cases h0 : readU32s bs with
    | error e => rw [h0, errBind] at h; exact absurd h (by simp)
    | ok p0 =>
      obtain ⟨magic, s0⟩ := p0
      rw [h0] at h
      simp only [okBind] at h
      by_cases hmg : magic ≠ 0x0000ABCD
      · rw [if_pos hmg] at h
        exact absurd h (by simp)
      · rw [if_neg hmg] at h
        cases h1 : readU8 s0 with
        | error e =>
          rw [h1] at h
          simp only [errBind] at h
          exact absurd h (by simp)
        | ok p1 =>
          obtain ⟨flag, s1⟩ := p1
          rw [h1] at h
          simp only [okBind] at h
          cases h2 : readU32s s1 with
          | error e => rw [h2, errBind] at h; exact absurd h (by simp)
          | ok p2 =>
            obtain ⟨nxt, s2⟩ := p2
            rw [h2] at h
            simp only [okBind] at h
            cases h3 : readU32s s2 with
            | error e => rw [h3, errBind] at h; exact absurd h (by simp)
            | ok p3 =>
              obtain ⟨count, s3⟩ := p3
              rw [h3] at h
              simp only [okBind] at h
              cases h4 : readValueRecords count s3 with
              | error e => rw [h4, errBind] at h; exact absurd h (by simp)
              | ok p4 =>
                obtain ⟨vals, s4⟩ := p4
                rw [h4] at h
                simp only [okBind] at h
                cases h5 : readKeyRecords count s4 with
                | error e => rw [h5, errBind] at h; exact absurd h (by simp)
                | ok p5 =>
                  obtain ⟨keys, s5⟩ := p5
                  rw [h5] at h
                  simp only [okBind, pureExcept] at h
                  refine ⟨vals, keys, ?_⟩
                  rw [← Except.ok.inj h]

/-- Witness instantiating claim C8 on a two-value, two-key table where key
id 10 is named "a" and carries the UTF-16 units [5, 6], and key id 12 has no
value record. -/
theorem claim_C8_witness :
    (imFind (stfEntries [(10, [5, 6]), (11, [9])] [(10, [97]), (12, [98])]) [97] =
        some [5, 6]) ∧
    imFind (stfEntries [(10, [5, 6]), (11, [9])] [(10, [97]), (12, [98])]) [98] =
      Option.none := by
  have h := (claim_C8.1 [(10, [5, 6]), (11, [9])] [(10, [97]), (12, [98])]
    (by decide) (by decide) (by decide))
  constructor
  · exact (h.1 [97] [5, 6]).mpr ⟨10, by decide, by decide⟩
  · exact h.2 12 [98] (by decide) (by intro v hv; simp at hv)

end SwgStf

namespace SwgTre

/-! Support for the round-trip theorem. -/

theorem getElem?_zip_some {α β : Type} :
    ∀ (l1 : List α) (l2 : List β) (i : Nat) (a : α) (b : β),
      l1[i]? = some a → l2[i]? = some b → (l1.zip l2)[i]? = some (a, b) := by
  intro l1
  induction l1 with
  | nil => intro l2 i a b h _; simp at h
  | cons x l1 ih =>
    intro l2 i a b h1 h2
    cases l2 with
    | nil => simp at h2
    | cons y l2 =>
      cases i with
      | zero =>
        simp only [List.getElem?_cons_zero, Option.some.injEq] at h1 h2
        simp [List.zip_cons_cons, h1, h2]
      | succ i =>
        simp only [List.getElem?_cons_succ] at h1 h2
        simp only [List.zip_cons_cons, List.getElem?_cons_succ]
        exact ih l2 i a b h1 h2

theorem specRecs_length (deflate : Bytes → Bytes) :
    ∀ (S : List WEntry) (d0 n0 : Nat), (specRecs deflate S d0 n0).length = S.length := by
  intro S
  induction S with
  | nil => intro d0 n0; rfl
  | cons e S ih =>
    intro d0 n0
    simp [specRecs, ih]

theorem specRecs_getElem (deflate : Bytes → Bytes) :
    ∀ (S : List WEntry) (i : Nat) (d0 n0 : Nat) (e : WEntry), S[i]? = some e →
      (specRecs deflate S d0 n0)[i]? = some
        { checksum := crc32bzip2 e.name
          data_uncompressed := e.payload.length
          data_offset := d0 + sumLens ((S.take i).map (entryDisk deflate))
          data_compression := e.method
          data_compressed := (entryDisk deflate e).length
          name_offset := n0 + (((S.take i).map (fun x => x.name.length + 1)).sum) } := by
  intro S
  induction S with
  | nil => intro i d0 n0 e h; simp at h
  | cons x S ih =>
    intro i d0 n0 e h
    cases i with
    | zero =>
      simp only [List.getElem?_cons_zero, Option.some.injEq] at h
      subst h
      simp [specRecs, sumLens]
    | succ i =>
      simp only [List.getElem?_cons_succ] at h
      rw [specRecs]
      simp only [List.getElem?_cons_succ]
      rw [ih i _ _ e h]
      simp only [List.take_succ_cons, List.map_cons, List.sum_cons, sumLens,
        Option.some.injEq, TreRecord.mk.injEq, true_and, and_true, List.map_take]
      constructor <;> omega

theorem map_snd_zip_of_length_eq {α β : Type} :
    ∀ (l1 : List α) (l2 : List β), l1.length = l2.length →
      (l1.zip l2).map Prod.snd = l2 := by
  intro l1
  induction l1 with
  | nil =>
    intro l2 h
    cases l2 with
    | nil => rfl
    | cons y l2 => simp at h
  | cons x l1 ih =>
    intro l2 h
    cases l2 with
    | nil => simp at h
    | cons y l2 =>
      simp only [List.zip_cons_cons, List.map_cons]
      rw [ih l2 (by simpa using h)]

theorem buildFiles_of_nodup (ps : List (TreRecord × Bytes))
    (hn : (ps.map Prod.snd).Nodup) :
    buildFiles ps = ps.map fun rn => (rn.2, mkFileData rn.1 rn.2) := by
  rw [buildFiles]
  have hmap : ps.foldl (fun m rn => imInsert m rn.2 (mkFileData rn.1 rn.2)) [] =
      (ps.map fun rn => (rn.2, mkFileData rn.1 rn.2)).foldl
        (fun m p => imInsert m p.1 p.2) [] := by
    rw [List.foldl_map]
  rw [hmap]
  have hfst : ((ps.map fun rn => (rn.2, mkFileData rn.1 rn.2)).map Prod.fst).Nodup := by
    rw [List.map_map]
    exact hn
  have h := foldl_imInsert_of_fresh (ps.map fun rn => (rn.2, mkFileData rn.1 rn.2)) []
    (fun p _ => rfl) hfst
  simpa using h

theorem slice_after_prefix (A X : Bytes) (k len : Nat) :
    slice (A ++ X) (A.length + k) len = slice X k len := by
  simp [slice, List.drop_append]


/-- Claim C1 as amended: writing any finite sequence of entries with unique,
NUL-free names (any record/name/per-entry compression choices, total output
and entry count within u32 range) and reopening the produced bytes yields an
archive whose (name, fully-read payload) pairs equal the written sequence as
a multiset. -/
theorem claim_C1_amended (deflate md5 : Bytes → Bytes) (inflate : Bytes → Option Bytes)
    (hz : ∀ x, inflate (deflate x) = some x)
    (opts : TreWriterOptions) (S : List WEntry)
    (hnul : ∀ e ∈ S, 0 ∉ e.name)
    (huniq : (S.map WEntry.name).Nodup)
    (hlen : (writeArchive deflate md5 opts S).length < 2 ^ 32)
    (hN : S.length < 2 ^ 32) :
    ∃ s : Shared,
      TreArchive.new inflate (writeArchive deflate md5 opts S) = .ok s ∧
      Multiset.ofList (s.files.map fun p =>
          (p.1, readEntryBytes inflate (writeArchive deflate md5 opts S) p.2)) =
        Multiset.ofList (S.map fun e => (e.name, Except.ok e.payload)) := by
  set w0 := (TreWriter.new opts).runOps deflate (entriesTrace S) with hw0
  set w := w0.finishPending deflate with hwdef
  have hwflag : w.writingToFile = false := finishPending_flag deflate w0
  have hspec := runEntries_spec deflate S (TreWriter.new opts) rfl rfl
  have hinfo : w.infoRecs = specRecs deflate S 36 0 := by
    rw [hwdef, hw0, hspec]
    simp [TreWriter.new, sumLens]
  have hdisks : w.disks = S.map (entryDisk deflate) := by
    rw [hwdef, hw0, hspec]
    simp [TreWriter.new]
  have hnameIn : w.nameIn = (S.map fun e => e.name ++ [0]).flatten := by
    rw [hwdef, hw0, hspec]
    simp [TreWriter.new]
  have hrecs : w.records = S.length := by
    rw [hwdef, hw0, hspec]
    simp [TreWriter.new]
  have hout : writeArchive deflate md5 opts S = w.finish deflate md5 := by
    rw [writeArchive, hwdef, hw0]
    exact finish_via_pending deflate md5 _
  have houtlen : (writeArchive deflate md5 opts S).length =
      36 + sumLens w.disks +
        (encBlock deflate w.recordCompression
          ((w.infoRecs.map TreRecord.toBytes).flatten)).length +
        ((encBlock deflate w.nameCompression w.nameIn).length +
          ((w.disks.map md5).flatten).length) := by
    rw [hout, finish_of_closed deflate md5 w hwflag]
    simp [header_toBytes_length, length_dataBlock, sumLens]
    omega
  have hd : 36 + sumLens w.disks < 2 ^ 32 := by omega
  have hi : (encBlock deflate w.recordCompression
      ((w.infoRecs.map TreRecord.toBytes).flatten)).length < 2 ^ 32 := by omega
  have hnm : (encBlock deflate w.nameCompression w.nameIn).length < 2 ^ 32 := by omega
  have hNrec : w.records < 2 ^ 32 := by rw [hrecs]; exact hN
  have hreceq : w.records = w.infoRecs.length := by
    rw [hrecs, hinfo, specRecs_length]
  have hpf := parse_finish deflate md5 inflate hz w hwflag hd hi hNrec hreceq
  have hnameslice : slice (w.finish deflate md5)
      (36 + sumLens w.disks +
        (encBlock deflate w.recordCompression
          ((w.infoRecs.map TreRecord.toBytes).flatten)).length)
      ((encBlock deflate w.nameCompression w.nameIn).length) =
      encBlock deflate w.nameCompression w.nameIn := by
    rw [finish_of_closed deflate md5 w hwflag, ← List.append_assoc, ← List.append_assoc]
    have hA : 36 + sumLens w.disks +
        (encBlock deflate w.recordCompression
          ((w.infoRecs.map TreRecord.toBytes).flatten)).length =
        ((TreHeader.toBytes
          { records := w.records
            record_start := 36 + w.disks.flatten.length
            record_compression := w.recordCompression
            record_compressed :=
              (encBlock deflate w.recordCompression
                ((w.infoRecs.map TreRecord.toBytes).flatten)).length
            name_compression := w.nameCompression
            name_compressed := (encBlock deflate w.nameCompression w.nameIn).length
            name_uncompressed := w.nameIn.length } ++ w.disks.flatten) ++
          encBlock deflate w.recordCompression
            ((w.infoRecs.map TreRecord.toBytes).flatten)).length := by
      simp [header_toBytes_length, length_dataBlock, sumLens]
      omega
    rw [hA, slice_middle]
  have hnames : readNames w.records w.nameIn = .ok (S.map WEntry.name) := by
    rw [hrecs, hnameIn]
    have hmm : (S.map fun e => e.name ++ [0]).flatten =
        ((S.map WEntry.name).map fun n => n ++ [0]).flatten := by
      rw [List.map_map]
      rfl
    rw [hmm, show S.length = (S.map WEntry.name).length by simp]
    apply readNames_flatten
    intro n hn
    obtain ⟨e, he, rfl⟩ := List.mem_map.mp hn
    exact hnul e he
  have hmeta : getMetadata inflate (writeArchive deflate md5 opts S) = .ok
      { header :=
          { records := w.records
            record_start := 36 + sumLens w.disks
            record_compression := w.recordCompression
            record_compressed :=
              (encBlock deflate w.recordCompression
                ((w.infoRecs.map TreRecord.toBytes).flatten)).length
            name_compression := w.nameCompression
            name_compressed := (encBlock deflate w.nameCompression w.nameIn).length % 2 ^ 32
            name_uncompressed := w.nameIn.length % 2 ^ 32 }
        files := buildFiles ((w.infoRecs.map truncRecord).zip (S.map WEntry.name)) } := by
    rw [hout, getMetadata, hpf.1]
    simp only [okBind, hpf.2.1, hpf.2.2, Nat.mod_eq_of_lt hnm, hnameslice,
      decodeBlock_encBlock deflate inflate hz, hnames, pureExcept]
  have hnew : TreArchive.new inflate (writeArchive deflate md5 opts S) = .ok
      { header :=
          { records := w.records
            record_start := 36 + sumLens w.disks
            record_compression := w.recordCompression
            record_compressed :=
              (encBlock deflate w.recordCompression
                ((w.infoRecs.map TreRecord.toBytes).flatten)).length
            name_compression := w.nameCompression
            name_compressed := (encBlock deflate w.nameCompression w.nameIn).length % 2 ^ 32
            name_uncompressed := w.nameIn.length % 2 ^ 32 }
        files := buildFiles ((w.infoRecs.map truncRecord).zip (S.map WEntry.name)) } := by
    rw [TreArchive.new, hmeta]
  refine ⟨_, hnew, ?_⟩
  · have hziplen : ((w.infoRecs.map truncRecord).zip (S.map WEntry.name)).length =
        S.length := by
      simp [hinfo, specRecs_length]
    have hpairs_snd : ((w.infoRecs.map truncRecord).zip (S.map WEntry.name)).map
        Prod.snd = S.map WEntry.name :=
      map_snd_zip_of_length_eq _ _ (by simp [hinfo, specRecs_length])
    have hnodup : (((w.infoRecs.map truncRecord).zip (S.map WEntry.name)).map
        Prod.snd).Nodup := by
      rw [hpairs_snd]
      exact huniq
    have hbuild := buildFiles_of_nodup _ hnodup
    show Multiset.ofList ((buildFiles
        ((w.infoRecs.map truncRecord).zip (S.map WEntry.name))).map fun p =>
          (p.1, readEntryBytes inflate (writeArchive deflate md5 opts S) p.2)) = _
    rw [hbuild, List.map_map]
    refine congrArg Multiset.ofList ?_
    apply List.ext_getElem?
    intro i
    rw [List.getElem?_map, List.getElem?_map]
    cases hS : S[i]? with
    | none =>
      have hge : S.length ≤ i := by
        by_contra hlt
        rw [List.getElem?_eq_getElem (by omega)] at hS
        exact Option.noConfusion hS
      rw [List.getElem?_eq_none (by omega : ((w.infoRecs.map truncRecord).zip
        (S.map WEntry.name)).length ≤ i)]
      rfl
    | some e =>
      have hilt : i < S.length := (List.getElem?_eq_some.mp hS).1
      have hrec_i := specRecs_getElem deflate S i 36 0 e hS
      have htrunc : (w.infoRecs.map truncRecord)[i]? = some (truncRecord
          { checksum := crc32bzip2 e.name
            data_uncompressed := e.payload.length
            data_offset := 36 + sumLens ((S.take i).map (entryDisk deflate))
            data_compression := e.method
            data_compressed := (entryDisk deflate e).length
            name_offset := 0 + (((S.take i).map (fun x => x.name.length + 1)).sum) }) := by
        rw [List.getElem?_map, hinfo, hrec_i]
        rfl
      have hname_i : (S.map WEntry.name)[i]? = some e.name := by
        rw [List.getElem?_map, hS]
        rfl
      rw [getElem?_zip_some _ _ i _ _ htrunc hname_i]
      simp only [Option.map_some', Option.some.injEq]
      have hdisks_i : (S.map (entryDisk deflate))[i]? = some (entryDisk deflate e) := by
        rw [List.getElem?_map, hS]
        rfl
      have hbound := sumLens_take_get (S.map (entryDisk deflate)) i _ hdisks_i
      have hsum_eq : sumLens ((S.take i).map (entryDisk deflate)) =
          sumLens ((S.map (entryDisk deflate)).take i) := by
        rw [List.map_take]
      have hsumw : sumLens (S.map (entryDisk deflate)) = sumLens w.disks := by
        rw [hdisks]
      have hmod1 : (36 + sumLens ((S.take i).map (entryDisk deflate))) % 2 ^ 32 =
          36 + sumLens ((S.take i).map (entryDisk deflate)) := by
        apply Nat.mod_eq_of_lt
        omega
      have hmod2 : (entryDisk deflate e).length % 2 ^ 32 = (entryDisk deflate e).length := by
        apply Nat.mod_eq_of_lt
        omega
      have hread : readEntryBytes inflate (writeArchive deflate md5 opts S)
          (mkFileData (truncRecord
            { checksum := crc32bzip2 e.name
              data_uncompressed := e.payload.length
              data_offset := 36 + sumLens ((S.take i).map (entryDisk deflate))
              data_compression := e.method
              data_compressed := (entryDisk deflate e).length
              name_offset := 0 + (((S.take i).map (fun x => x.name.length + 1)).sum) })
            e.name) = Except.ok e.payload := by
        rw [readEntryBytes]
        simp only [mkFileData, truncRecord, hmod1, hmod2]
        rw [hout, finish_of_closed deflate md5 w hwflag]
        have h36 : 36 + sumLens ((S.take i).map (entryDisk deflate)) =
            (TreHeader.toBytes
              { records := w.records
                record_start := 36 + w.disks.flatten.length
                record_compression := w.recordCompression
                record_compressed :=
                  (encBlock deflate w.recordCompression
                    ((w.infoRecs.map TreRecord.toBytes).flatten)).length
                name_compression := w.nameCompression
                name_compressed := (encBlock deflate w.nameCompression w.nameIn).length
                name_uncompressed := w.nameIn.length }).length +
              sumLens ((S.take i).map (entryDisk deflate)) := by
          rw [header_toBytes_length]
        rw [h36, slice_after_prefix, hdisks, hsum_eq]
        rw [slice_flatten_get (S.map (entryDisk deflate)) _ i (entryDisk deflate e)
          hdisks_i]
        rw [entryDisk]
        exact decodeBlock_encBlock deflate inflate hz e.method e.payload
      exact Prod.ext rfl hread


/-- Claim C1 counterexample: the round-trip property as stated fails when an
entry name contains a NUL byte.  Writing the single entry named [0] (a unique
name) with no compression anywhere and reopening the output yields an archive
whose only file is named [] (the reader splits the name block at the first
NUL), so the (name, payload) multiset differs from the written sequence. -/
theorem claim_C1_counterexample :
    ¬ ∃ s : Shared,
      TreArchive.new some (writeArchive id (fun _ => List.replicate 16 0)
          { record_compression := .none, name_compression := .none }
          [{ name := [0], payload := [], method := .none }]) = .ok s ∧
      Multiset.ofList (s.files.map fun p =>
          (p.1, readEntryBytes some (writeArchive id (fun _ => List.replicate 16 0)
            { record_compression := .none, name_compression := .none }
            [{ name := [0], payload := [], method := .none }]) p.2)) =
        Multiset.ofList (([{ name := [0], payload := [], method := .none }] :
            List WEntry).map fun e => (e.name, Except.ok e.payload)) := by
  rintro ⟨s, hnew, hm⟩
  have hval : TreArchive.new some (writeArchive id (fun _ => List.replicate 16 0)
      { record_compression := .none, name_compression := .none }
      [{ name := [0], payload := [], method := .none }]) = .ok
      { header :=
          { records := 1, record_start := 36, record_compression := .none,
            record_compressed := 24, name_compression := .none,
            name_compressed := 2, name_uncompressed := 2 }
        files := [([],
          { crc32 := 2985771083, compression_method := .none,
            compressed_size := 0, uncompressed_size := 0,
            file_name := [], header_start := 0, data_start := 36 })] } := by
    rfl
  rw [hval] at hnew
  injection hnew with hs
  subst hs
  have hre : readEntryBytes some (writeArchive id (fun _ => List.replicate 16 0)
      { record_compression := .none, name_compression := .none }
      [{ name := [0], payload := [], method := .none }])
      { crc32 := 2985771083, compression_method := .none,
        compressed_size := 0, uncompressed_size := 0,
        file_name := [], header_start := 0, data_start := 36 } = Except.ok [] := by
    rfl
  simp only [List.map_cons, List.map_nil, hre] at hm
  have hp := Multiset.coe_eq_coe.mp hm
  have heq := List.perm_singleton.mp hp
  injection heq with h1 h2
  injection h1 with ha hb
  exact absurd ha (by decide)


set_option maxRecDepth 8000 in
/-- Witness for claim C1 (amended): the round trip holds at the concrete
one-entry sequence with NUL-free name [104, 105] and payload [1, 2, 3],
with the identity deflate, constant 16-byte digest, and some as inflate. -/
theorem claim_C1_amended_witness :
    ∃ s : Shared,
      TreArchive.new some (writeArchive id (fun _ => List.replicate 16 0)
          { record_compression := .none, name_compression := .none }
          [{ name := [104, 105], payload := [1, 2, 3], method := .none }]) = .ok s ∧
      Multiset.ofList (s.files.map fun p =>
          (p.1, readEntryBytes some (writeArchive id (fun _ => List.replicate 16 0)
            { record_compression := .none, name_compression := .none }
            [{ name := [104, 105], payload := [1, 2, 3], method := .none }]) p.2)) =
        Multiset.ofList
          (([{ name := [104, 105], payload := [1, 2, 3], method := .none }] :
            List WEntry).map fun e => (e.name, Except.ok e.payload)) :=
  claim_C1_amended id (fun _ => List.replicate 16 0) some (fun x => rfl)
    { record_compression := .none, name_compression := .none }
    [{ name := [104, 105], payload := [1, 2, 3], method := .none }]
    (by decide) (by decide) (by decide) (by decide)

end SwgTre
